import Mathlib

/-!
Shallow embedding of `src/maud_macros/src/parse.rs`, the hand-written
recursive-descent parser of the maud templating macro, together with
theorems checking the natural-language specification against it.

Rust `TokenStream`s are embedded as `List TokenTree`; the mutable parser
state (`in_attr` flag plus a token iterator) is passed explicitly; every
fallible method returns `Except String`.  Mutual recursion of the markup
grammar is bounded by an explicit `fuel : Nat` argument that is decremented
on every call; running out of fuel yields the distinguished error
"out of fuel", which the real code (whose recursion is bounded by input
nesting) never produces.  Universal theorems quantify over the fuel, and
concrete witnesses supply a sufficiently large fuel.
-/

namespace Maud

/-- Delimiter kinds of `proc_macro::Delimiter` (the `None` delimiter is
never matched by this parser and is omitted from the model). -/
inductive Delimiter where
  | parenthesis
  | brace
  | bracket
deriving DecidableEq, Repr

/-- Operator adjacency hint, `proc_macro::Spacing`. -/
inductive Spacing where
  | alone
  | joint
deriving DecidableEq, Repr

/-- Source spans are opaque to the parser; model them as numbers. -/
abbrev Span := Nat

/-- Model of `proc_macro::Span::join`: the covering span (within one file
the real `join` always succeeds). -/
def Span.join (a b : Span) : Option Span := some (max a b)

/-- Model of `proc_macro::Literal` at the interface the parser uses:
`literalext::LiteralExt::parse_string` succeeds exactly on string
literals. -/
inductive Lit where
  | str (value : String)
  | nonStr (raw : String)
deriving DecidableEq, Repr

def Lit.parse_string : Lit → Option String
  | .str v => some v
  | .nonStr _ => none

/-- `proc_macro::TokenTree` (a `TokenNode` kind plus a span), flattened
into one inductive. -/
inductive TokenTree where
  | literal (lit : Lit) (span : Span)
  | term (name : String) (span : Span)
  | op (c : Char) (spacing : Spacing) (span : Span)
  | group (delim : Delimiter) (stream : List TokenTree) (span : Span)

def TokenTree.span : TokenTree → Span
  | .literal _ s => s
  | .term _ s => s
  | .op _ _ s => s
  | .group _ _ s => s

/-- The `Toggler` AST node: an opaque bracketed condition. -/
structure Toggler where
  cond : List TokenTree
  cond_span : Span

mutual

/-- The `ast::Markup` tagged union.  Source variant names `If`, `Match`,
`Let` are Lean keywords and are rendered `ifChain`, `matchExpr`,
`letExpr`. -/
inductive Markup where
  | literal (content : String) (span : Span)
  | splice (expr : List TokenTree)
  | element (name : List TokenTree) (attrs : Attrs) (body : Option Markup)
  | block (b : Block)
  | special (s : Special)
  | ifChain (segments : List Special)
  | matchExpr (head : List TokenTree) (arms : List Special) (arms_span : Span)
  | letExpr (tokens : List TokenTree)

/-- `ast::Block`. -/
inductive Block where
  | mk (markups : List Markup) (span : Span)

/-- `ast::Special`: the generic head-plus-body shape. -/
inductive Special where
  | mk (head : List TokenTree) (body : Block)

/-- `ast::Attrs`. -/
inductive Attrs where
  | mk (classes_static : List (List TokenTree))
       (classes_toggled : List (List TokenTree × Toggler))
       (ids : List (List TokenTree))
       (attrs : List Attribute)

/-- `ast::Attribute`. -/
inductive Attribute where
  | mk (name : List TokenTree) (attr_type : AttrType)

/-- `ast::AttrType`. -/
inductive AttrType where
  | normal (value : Markup)
  | empty (toggler : Option Toggler)

end

def Block.markups : Block → List Markup
  | .mk ms _ => ms

def Block.span : Block → Span
  | .mk _ s => s

def Special.head : Special → List TokenTree
  | .mk h _ => h

def Special.body : Special → Block
  | .mk _ b => b

/-- The parser state: the `in_attr` flag plus the remaining input tokens
(the cursor position of the `TokenTreeIter`). -/
structure Parser where
  in_attr : Bool
  input : List TokenTree

/-- `Parser::new`. -/
def Parser.new (input : List TokenTree) : Parser := ⟨false, input⟩

/-- `Parser::with_input`. -/
def Parser.with_input (p : Parser) (input : List TokenTree) : Parser :=
  ⟨p.in_attr, input⟩

/-- `Iterator::next` on the parser: consume one token. -/
def Parser.next (p : Parser) : Option TokenTree × Parser :=
  match p.input with
  | [] => (none, p)
  | t :: rest => (some t, ⟨p.in_attr, rest⟩)

/-- `Parser::peek`. -/
def Parser.peek (p : Parser) : Option TokenTree := p.input.head?

/-- `Parser::peek2`. -/
def Parser.peek2 (p : Parser) : Option (TokenTree × Option TokenTree) :=
  match p.input with
  | [] => none
  | t :: rest => some (t, rest.head?)

/-- `Parser::advance`. -/
def Parser.advance (p : Parser) : Parser := (p.next).2

/-- `Parser::advance2`. -/
def Parser.advance2 (p : Parser) : Parser := p.advance.advance

/-- `Parser::literal`: accept string literals only. -/
def Parser.literal (lit : Lit) (span : Span) : Except String Markup :=
  match lit.parse_string with
  | some s => .ok (.literal s span)
  | none => .error ("expected string")

/-- The loop of `Parser::name`: an alternating state machine.  A `-` token
is always consumed and pushed (and sets `expect_ident`); an identifier is
consumed only when `expect_ident` is set; anything else stops the loop. -/
def Parser.nameLoop : List TokenTree → Bool → List TokenTree →
    List TokenTree × List TokenTree
  | result, _, (.op '-' sp span) :: rest =>
      nameLoop (result ++ [.op '-' sp span]) true rest
  | result, expect_ident, (.term t span) :: rest =>
      if expect_ident then nameLoop (result ++ [.term t span]) false rest
      else (result, (.term t span) :: rest)
  | result, _, input => (result, input)

/-- `Parser::name`.  The final parser state is returned also on errors,
since `Parser::attrs` inspects the speculative cursor after a failed
name parse. -/
def Parser.name (p : Parser) : Except String (List TokenTree) × Parser :=
  match p.input with
  | (.term t span) :: rest =>
      match Parser.nameLoop [.term t span] false rest with
      | (result, remaining) => (.ok result, ⟨p.in_attr, remaining⟩)
  | _ => (.error ("expected identifier"), p)

/-- `Parser::namespaced_name`. -/
def Parser.namespaced_name (p : Parser) :
    Except String (List TokenTree) × Parser :=
  match p.name with
  | (.error e, p1) => (.error e, p1)
  | (.ok first, p1) =>
      match p1.input with
      | (.op ':' sp span) :: rest =>
          match Parser.name ⟨p1.in_attr, rest⟩ with
          | (.error e, p2) => (.error e, p2)
          | (.ok second, p2) =>
              (.ok (first ++ [.op ':' sp span] ++ second), p2)
      | _ => (.ok first, p1)

/-- First loop of `Parser::let_expr`: accumulate up to and including the
first `=`. -/
def Parser.letLoop1 : List TokenTree → List TokenTree →
    Except String (List TokenTree × List TokenTree)
  | tokens, (.op '=' sp span) :: rest => .ok (tokens ++ [.op '=' sp span], rest)
  | tokens, t :: rest => letLoop1 (tokens ++ [t]) rest
  | _, [] => .error ("unexpected end of @let expression")

/-- Second loop of `Parser::let_expr`: accumulate up to and including the
first `;`. -/
def Parser.letLoop2 : List TokenTree → List TokenTree →
    Except String (List TokenTree × List TokenTree)
  | tokens, (.op ';' sp span) :: rest => .ok (tokens ++ [.op ';' sp span], rest)
  | tokens, t :: rest => letLoop2 (tokens ++ [t]) rest
  | _, [] => .error ("unexpected end of @let expression")

/-- `Parser::let_expr`. -/
def Parser.let_expr (keyword : TokenTree) (p : Parser) :
    Except String (Markup × Parser) :=
  match Parser.letLoop1 [keyword] p.input with
  | .error e => .error e
  | .ok (tokens, rest) =>
      match Parser.letLoop2 tokens rest with
      | .error e => .error e
      | .ok (tokens2, rest2) => .ok (.letExpr tokens2, ⟨p.in_attr, rest2⟩)

/-- `Parser::attr_toggler`. -/
def Parser.attr_toggler (p : Parser) : Option Toggler × Parser :=
  match p.input with
  | (.group .bracket cond cond_span) :: rest =>
      (some ⟨cond, cond_span⟩, ⟨p.in_attr, rest⟩)
  | _ => (none, p)

mutual

/-- `Parser::markups`: the top-level loop. -/
def Parser.markupsF (fuel : Nat) (p : Parser) :
    Except String (List Markup × Parser) :=
  match fuel with
  | 0 => .error ("out of fuel")
  | fuel + 1 =>
      match p.peek2 with
      | none => .ok ([], p)
      | some (.op ';' _ _, _) => Parser.markupsF fuel p.advance
      | some (.op '@' _ _, some (.term t span)) =>
          if t = "let" then
            match Parser.let_expr (.term t span) p.advance2 with
            | .error e => .error e
            | .ok (m, p1) =>
                match Parser.markupsF fuel p1 with
                | .error e => .error e
                | .ok (ms, p2) => .ok (m :: ms, p2)
          else
            match Parser.markupF fuel p with
            | .error e => .error e
            | .ok (m, p1) =>
                match Parser.markupsF fuel p1 with
                | .error e => .error e
                | .ok (ms, p2) => .ok (m :: ms, p2)
      | some _ =>
          match Parser.markupF fuel p with
          | .error e => .error e
          | .ok (m, p1) =>
              match Parser.markupsF fuel p1 with
              | .error e => .error e
              | .ok (ms, p2) => .ok (m :: ms, p2)

/-- `Parser::markup`: dispatch on the next token. -/
def Parser.markupF (fuel : Nat) (p : Parser) :
    Except String (Markup × Parser) :=
  match fuel with
  | 0 => .error ("out of fuel")
  | fuel + 1 =>
      match p.input with
      | [] => .error ("unexpected end of input")
      | (.literal lit span) :: rest =>
          match Parser.literal lit span with
          | .error e => .error e
          | .ok m => .ok (m, ⟨p.in_attr, rest⟩)
      | (.op '@' _ _) :: rest =>
          match rest with
          | (.term t tspan) :: rest2 =>
              if t = "if" then
                match Parser.if_exprF fuel [TokenTree.term t tspan] []
                    ⟨p.in_attr, rest2⟩ with
                | .error e => .error e
                | .ok (segments, p1) => .ok (.ifChain segments, p1)
              else if t = "while" then
                Parser.while_exprF fuel [TokenTree.term t tspan] ⟨p.in_attr, rest2⟩
              else if t = "for" then
                Parser.for_exprF fuel [TokenTree.term t tspan] ⟨p.in_attr, rest2⟩
              else if t = "match" then
                Parser.match_exprF fuel [TokenTree.term t tspan] ⟨p.in_attr, rest2⟩
              else if t = "let" then
                .error ("@let only works inside a block")
              else
                .error ("unknown keyword `@" ++ t ++ "`")
          | _ => .error ("expected keyword after `@`")
      | (.term _ _) :: _ =>
          match p.namespaced_name with
          | (.error e, _) => .error e
          | (.ok name, p1) => Parser.elementF fuel name p1
      | (.group .parenthesis expr _) :: rest =>
          .ok (.splice expr, ⟨p.in_attr, rest⟩)
      | (.group .brace body span) :: rest =>
          match Parser.blockF fuel ⟨p.in_attr, rest⟩ body span with
          | .error e => .error e
          | .ok b => .ok (.block b, ⟨p.in_attr, rest⟩)
      | _ => .error ("invalid syntax")

/-- `Parser::if_expr`: accumulate head tokens until a brace group, parse
it as the body, push the segment, then look for `@else`. -/
def Parser.if_exprF (fuel : Nat) (head : List TokenTree)
    (segments : List Special) (p : Parser) :
    Except String (List Special × Parser) :=
  match fuel with
  | 0 => .error ("out of fuel")
  | fuel + 1 =>
      match p.input with
      | (.group .brace body span) :: rest =>
          match Parser.blockF fuel ⟨p.in_attr, rest⟩ body span with
          | .error e => .error e
          | .ok b =>
              Parser.else_if_exprF fuel (segments ++ [Special.mk head b])
                ⟨p.in_attr, rest⟩
      | t :: rest => Parser.if_exprF fuel (head ++ [t]) segments ⟨p.in_attr, rest⟩
      | [] => .error ("unexpected end of @if expression")

/-- `Parser::else_if_expr`: an optional `@else if` or `@else`. -/
def Parser.else_if_exprF (fuel : Nat) (segments : List Special) (p : Parser) :
    Except String (List Special × Parser) :=
  match fuel with
  | 0 => .error ("out of fuel")
  | fuel + 1 =>
      match p.peek2 with
      | some (.op '@' _ _, some (.term e espan)) =>
          if e = "else" then
            match p.advance2.peek with
            | some (.term i ispan) =>
                if i = "if" then
                  Parser.if_exprF fuel
                    [TokenTree.term e espan, TokenTree.term i ispan]
                    segments p.advance2.advance
                else
                  Parser.else_bodyF fuel segments (.term e espan) p.advance2
            | _ => Parser.else_bodyF fuel segments (.term e espan) p.advance2
          else .ok (segments, p)
      | _ => .ok (segments, p)

/-- The bare-`else` arm of `Parser::else_if_expr`: the next token must be
a brace group. -/
def Parser.else_bodyF (fuel : Nat) (segments : List Special)
    (else_keyword : TokenTree) (p : Parser) :
    Except String (List Special × Parser) :=
  match fuel with
  | 0 => .error ("out of fuel")
  | fuel + 1 =>
      match p.input with
      | (.group .brace blockTs span) :: rest =>
          match Parser.blockF fuel ⟨p.in_attr, rest⟩ blockTs span with
          | .error e => .error e
          | .ok body =>
              .ok (segments ++ [Special.mk [else_keyword] body], ⟨p.in_attr, rest⟩)
      | _ => .error ("expected body for @else")

/-- `Parser::while_expr`: accumulate head tokens until a brace group. -/
def Parser.while_exprF (fuel : Nat) (head : List TokenTree) (p : Parser) :
    Except String (Markup × Parser) :=
  match fuel with
  | 0 => .error ("out of fuel")
  | fuel + 1 =>
      match p.input with
      | (.group .brace body span) :: rest =>
          match Parser.blockF fuel ⟨p.in_attr, rest⟩ body span with
          | .error e => .error e
          | .ok b => .ok (.special (.mk head b), ⟨p.in_attr, rest⟩)
      | t :: rest => Parser.while_exprF fuel (head ++ [t]) ⟨p.in_attr, rest⟩
      | [] => .error ("unexpected end of @while expression")

/-- First loop of `Parser::for_expr`: accumulate head tokens up to and
including the `in` keyword. -/
def Parser.for_exprF (fuel : Nat) (head : List TokenTree) (p : Parser) :
    Except String (Markup × Parser) :=
  match fuel with
  | 0 => .error ("out of fuel")
  | fuel + 1 =>
      match p.input with
      | (.term t span) :: rest =>
          if t = "in" then
            Parser.for_bodyF fuel (head ++ [TokenTree.term t span]) ⟨p.in_attr, rest⟩
          else
            Parser.for_exprF fuel (head ++ [TokenTree.term t span]) ⟨p.in_attr, rest⟩
      | t :: rest => Parser.for_exprF fuel (head ++ [t]) ⟨p.in_attr, rest⟩
      | [] => .error ("unexpected end of @for expression")

/-- Second loop of `Parser::for_expr`: accumulate remaining head tokens
until a brace group. -/
def Parser.for_bodyF (fuel : Nat) (head : List TokenTree) (p : Parser) :
    Except String (Markup × Parser) :=
  match fuel with
  | 0 => .error ("out of fuel")
  | fuel + 1 =>
      match p.input with
      | (.group .brace body span) :: rest =>
          match Parser.blockF fuel ⟨p.in_attr, rest⟩ body span with
          | .error e => .error e
          | .ok b => .ok (.special (.mk head b), ⟨p.in_attr, rest⟩)
      | t :: rest => Parser.for_bodyF fuel (head ++ [t]) ⟨p.in_attr, rest⟩
      | [] => .error ("unexpected end of @for expression")

/-- `Parser::match_expr`: accumulate head tokens until a brace group,
whose contents are parsed as the match arms. -/
def Parser.match_exprF (fuel : Nat) (head : List TokenTree) (p : Parser) :
    Except String (Markup × Parser) :=
  match fuel with
  | 0 => .error ("out of fuel")
  | fuel + 1 =>
      match p.input with
      | (.group .brace body span) :: rest =>
          match Parser.match_armsF fuel (p.with_input body) with
          | .error e => .error e
          | .ok (arms, _) => .ok (.matchExpr head arms span, ⟨p.in_attr, rest⟩)
      | t :: rest => Parser.match_exprF fuel (head ++ [t]) ⟨p.in_attr, rest⟩
      | [] => .error ("unexpected end of @match expression")

/-- `Parser::match_arms`. -/
def Parser.match_armsF (fuel : Nat) (p : Parser) :
    Except String (List Special × Parser) :=
  match fuel with
  | 0 => .error ("out of fuel")
  | fuel + 1 =>
      match Parser.match_armF fuel p with
      | .error e => .error e
      | .ok (none, p1) => .ok ([], p1)
      | .ok (some arm, p1) =>
          match Parser.match_armsF fuel p1 with
          | .error e => .error e
          | .ok (arms, p2) => .ok (arm :: arms, p2)

/-- `Parser::match_arm`. -/
def Parser.match_armF (fuel : Nat) (p : Parser) :
    Except String (Option Special × Parser) :=
  match fuel with
  | 0 => .error ("out of fuel")
  | fuel + 1 => Parser.match_arm_headF fuel [] p

/-- The pattern loop of `Parser::match_arm`: accumulate head tokens until
an adjacent `=` `>` pair. -/
def Parser.match_arm_headF (fuel : Nat) (head : List TokenTree) (p : Parser) :
    Except String (Option Special × Parser) :=
  match fuel with
  | 0 => .error ("out of fuel")
  | fuel + 1 =>
      match p.peek2 with
      | some (.op '=' .joint s1, some (.op '>' sp2 s2)) =>
          Parser.match_arm_bodyF fuel
            (head ++ [TokenTree.op '=' .joint s1, TokenTree.op '>' sp2 s2])
            p.advance2
      | some (t, _) => Parser.match_arm_headF fuel (head ++ [t]) p.advance
      | none =>
          if head.isEmpty then .ok (none, p)
          else .error ("unexpected end of @match pattern")

/-- The body of a match arm: either a brace group (with optional trailing
comma) or an expression run terminated by a comma. -/
def Parser.match_arm_bodyF (fuel : Nat) (head : List TokenTree) (p : Parser) :
    Except String (Option Special × Parser) :=
  match fuel with
  | 0 => .error ("out of fuel")
  | fuel + 1 =>
      match p.input with
      | (.group .brace body span) :: rest =>
          match Parser.blockF fuel ⟨p.in_attr, rest⟩ body span with
          | .error e => .error e
          | .ok b =>
              match rest with
              | (.op ',' _ _) :: rest2 =>
                  .ok (some (.mk head b), ⟨p.in_attr, rest2⟩)
              | _ => .ok (some (.mk head b), ⟨p.in_attr, rest⟩)
      | first :: rest =>
          Parser.match_arm_exprF fuel head first.span [first] ⟨p.in_attr, rest⟩
      | [] => .error ("unexpected end of @match arm")

/-- The expression-body loop of `Parser::match_arm`: accumulate tokens
until a top-level comma, joining spans, then parse the run as a block. -/
def Parser.match_arm_exprF (fuel : Nat) (head : List TokenTree) (span : Span)
    (body : List TokenTree) (p : Parser) :
    Except String (Option Special × Parser) :=
  match fuel with
  | 0 => .error ("out of fuel")
  | fuel + 1 =>
      match p.input with
      | (.op ',' _ _) :: rest =>
          match Parser.blockF fuel ⟨p.in_attr, rest⟩ body span with
          | .error e => .error e
          | .ok b => .ok (some (.mk head b), ⟨p.in_attr, rest⟩)
      | t :: rest =>
          match Span.join span t.span with
          | some bigger =>
              Parser.match_arm_exprF fuel head bigger (body ++ [t]) ⟨p.in_attr, rest⟩
          | none =>
              Parser.match_arm_exprF fuel head span (body ++ [t]) ⟨p.in_attr, rest⟩
      | [] => .error ("unexpected end of @match arm")

/-- `Parser::element`. -/
def Parser.elementF (fuel : Nat) (name : List TokenTree) (p : Parser) :
    Except String (Markup × Parser) :=
  match fuel with
  | 0 => .error ("out of fuel")
  | fuel + 1 =>
      if p.in_attr then .error ("unexpected element, you silly bumpkin")
      else
        match Parser.attrsF fuel [] [] [] [] p with
        | .error e => .error e
        | .ok (attrs, p1) =>
            match p1.peek with
            | some (.op ';' _ _) => .ok (.element name attrs none, p1.advance)
            | some (.op '/' _ _) => .ok (.element name attrs none, p1.advance)
            | _ =>
                match Parser.markupF fuel p1 with
                | .error e => .error e
                | .ok (m, p2) => .ok (.element name attrs (some m), p2)

/-- The loop of `Parser::attrs`: each iteration speculatively parses a
namespaced name on a clone and inspects the following token; the four
attribute forms commit the clone, anything else stops the loop with the
cursor unchanged. -/
def Parser.attrsF (fuel : Nat) (classes_static : List (List TokenTree))
    (classes_toggled : List (List TokenTree × Toggler))
    (ids : List (List TokenTree)) (attrs : List Attribute) (p : Parser) :
    Except String (Attrs × Parser) :=
  match fuel with
  | 0 => .error ("out of fuel")
  | fuel + 1 =>
      match p.namespaced_name with
      | (maybe_name, attempt1) =>
        match attempt1.next with
        | (token_after, attempt2) =>
          match maybe_name, token_after with
          | .ok name, some (.op '=' _ _) =>
              match Parser.markupF fuel ⟨true, attempt2.input⟩ with
              | .error e => .error e
              | .ok (value, pv) =>
                  Parser.attrsF fuel classes_static classes_toggled ids
                    (attrs ++ [Attribute.mk name (.normal value)])
                    ⟨attempt2.in_attr, pv.input⟩
          | .ok name, some (.op '?' _ _) =>
              match attempt2.attr_toggler with
              | (toggler, pt) =>
                  Parser.attrsF fuel classes_static classes_toggled ids
                    (attrs ++ [Attribute.mk name (.empty toggler)]) pt
          | .error _, some (.op '.' _ _) =>
              match attempt2.name with
              | (.error e, _) => .error e
              | (.ok name, pn) =>
                  match pn.attr_toggler with
                  | (some toggler, pt) =>
                      Parser.attrsF fuel classes_static
                        (classes_toggled ++ [(name, toggler)]) ids attrs pt
                  | (none, pt) =>
                      Parser.attrsF fuel (classes_static ++ [name])
                        classes_toggled ids attrs pt
          | .error _, some (.op '#' _ _) =>
              match attempt2.name with
              | (.error e, _) => .error e
              | (.ok name, pn) =>
                  Parser.attrsF fuel classes_static classes_toggled
                    (ids ++ [name]) attrs pn
          | _, _ => .ok (Attrs.mk classes_static classes_toggled ids attrs, p)

/-- `Parser::block`: parse an extracted brace-group stream as markups in
a sub-parser. -/
def Parser.blockF (fuel : Nat) (p : Parser) (body : List TokenTree)
    (span : Span) : Except String Block :=
  match fuel with
  | 0 => .error ("out of fuel")
  | fuel + 1 =>
      match Parser.markupsF fuel (p.with_input body) with
      | .error e => .error e
      | .ok (markups, _) => .ok (.mk markups span)

end

/-- `parse`: the main entry point, up to the explicit fuel bound. -/
def parse (fuel : Nat) (input : List TokenTree) : Except String (List Markup) :=
  match Parser.markupsF fuel (Parser.new input) with
  | .error e => .error e
  | .ok (ms, _) => .ok ms

/-- `BufferBorrow`. -/
inductive BufferBorrow where
  | needBorrow
  | alreadyBorrowed
deriving DecidableEq, Repr

/-- `BufferType`. -/
inductive BufferType where
  | allocated
  | custom (borrow : BufferBorrow)
deriving DecidableEq, Repr

/-- `OutputBuffer`. -/
structure OutputBuffer where
  ident : TokenTree
  buffer_type : BufferType

/-- `peek3`. -/
def peek3 (input : List TokenTree) :
    Option (TokenTree × Option TokenTree × Option TokenTree) :=
  match input with
  | [] => none
  | a :: rest => some (a, rest.head?, (rest.drop 1).head?)

/-- `buffer_argument`.  The Rust function takes `&mut TokenStream` and
overwrites it only on success; the returned list is the final stream. -/
def buffer_argument (input_stream : List TokenTree) :
    Except String OutputBuffer × List TokenTree :=
  match peek3 input_stream with
  | some (.term buffer span, some (.op ',' _ _), _) =>
      (.ok ⟨.term buffer span, .custom .alreadyBorrowed⟩, input_stream.drop 2)
  | some (.op '&' _ _, some (.term mutable _), some (.term buffer span)) =>
      if mutable = "mut" then
        (.ok ⟨.term buffer span, .custom .needBorrow⟩, input_stream.drop 4)
      else
        (.error ("Error trying to parse the buffer name for html_to!"), input_stream)
  | _ =>
      (.error ("Error trying to parse the buffer name for html_to!"), input_stream)

end Maud

namespace Maud

/-! ## Specification predicates -/

/-- A token is a comma operator. -/
def isCommaTok : TokenTree → Bool
  | .op ',' _ _ => true
  | _ => false

/-- A token is a quoted string literal or a semicolon operator. -/
def strLitOrSemi : TokenTree → Bool
  | .literal lit _ => (lit.parse_string).isSome
  | .op c _ _ => c == ';'
  | _ => false

/-- The `Literal` markups a run of string literals and semicolons denotes,
in input order. -/
def litsOf : List TokenTree → List Markup
  | [] => []
  | (.literal (.str s) span) :: rest => Markup.literal s span :: litsOf rest
  | _ :: rest => litsOf rest

/-- A token is not a brace-delimited group. -/
def noBraceTok : TokenTree → Bool
  | .group .brace _ _ => false
  | _ => true

/-- The token run after a consumed `@else` leads to the
"expected body for @else" failure: it neither starts with the `if`
keyword nor with a brace group. -/
def noElseBody : List TokenTree → Bool
  | (.term i _) :: _ => !(i == "if")
  | (.group .brace _ _) :: _ => false
  | _ => true

/-- The leading shape `buffer_argument` accepts: a bare identifier
followed by a comma, or `&` `mut` identifier. -/
def bufferShapeCheck (ts : List TokenTree) : Bool :=
  match peek3 ts with
  | some (.term _ _, some (.op ',' _ _), _) => true
  | some (.op '&' _ _, some (.term m _), some (.term _ _)) => m == "mut"
  | _ => false

/-! ## C9: empty input parses to the empty markup list -/

/-- C9: parsing an empty token stream succeeds and returns an empty
markup list, not an error. -/
theorem C9_parse_empty (fuel : Nat) (h : 1 ≤ fuel) : parse fuel [] = .ok [] := by
  obtain ⟨k, rfl⟩ : ∃ k, fuel = k + 1 := ⟨fuel - 1, by omega⟩
  rfl

theorem C9_parse_empty_witness : parse 1 [] = .ok [] :=
  C9_parse_empty 1 (by decide)

/-! ## C10: buffer-argument errors leave the stream unchanged -/

/-- C10: when `buffer_argument` returns an error, the input token stream
it was given is left completely unchanged. -/
theorem C10_buffer_error_keeps_stream (ts out : List TokenTree) (e : String)
    (h : buffer_argument ts = (.error e, out)) : out = ts := by
  unfold buffer_argument at h
  split at h
  · simp at h
  · split at h
    · simp at h
    · simp only [Prod.mk.injEq] at h
      exact h.2.symm
  · simp only [Prod.mk.injEq] at h
    exact h.2.symm

theorem C10_buffer_error_keeps_stream_witness :
    (buffer_argument [TokenTree.literal (.str "x") 0]).2 =
      [TokenTree.literal (.str "x") 0] :=
  C10_buffer_error_keeps_stream [TokenTree.literal (.str "x") 0]
    [TokenTree.literal (.str "x") 0]
    ("Error trying to parse the buffer name for html_to!") rfl

end Maud

namespace Maud

/-! ## C5: the buffer-argument parser -/

/-- C5 counterexample: the leading shape `&` `mut` identifier identifier —
which contains no comma at all, hence is neither of the two shapes the
claim allows — is accepted by `buffer_argument` rather than failing, and
four tokens are consumed. -/
theorem C5_counterexample :
    buffer_argument [TokenTree.op '&' .alone 0, TokenTree.term "mut" 1,
        TokenTree.term "foo" 2, TokenTree.term "bar" 3] =
      (.ok ⟨TokenTree.term "foo" 2, .custom .needBorrow⟩, []) ∧
    ([TokenTree.op '&' .alone 0, TokenTree.term "mut" 1,
        TokenTree.term "foo" 2, TokenTree.term "bar" 3].all
      fun t => !(isCommaTok t)) = true :=
  ⟨rfl, rfl⟩

/-- C5 amended: the parser recognizes (a) a bare identifier followed by
`,`, consuming both, and (b) `&`, `mut`, identifier, consuming that
prefix plus one further token (which is never checked to be a comma and
need not exist); any other leading shape is a hard failure that leaves
the stream unchanged. -/
theorem C5_buffer_argument_shapes :
    (∀ (b : String) (s : Span) (sp : Spacing) (sc : Span)
        (rest : List TokenTree),
      buffer_argument (.term b s :: .op ',' sp sc :: rest) =
        (.ok ⟨.term b s, .custom .alreadyBorrowed⟩, rest)) ∧
    (∀ (sp1 : Spacing) (s1 s2 : Span) (b : String) (s3 : Span)
        (rest : List TokenTree),
      buffer_argument (.op '&' sp1 s1 :: .term "mut" s2 :: .term b s3 :: rest) =
        (.ok ⟨.term b s3, .custom .needBorrow⟩, rest.drop 1)) ∧
    (∀ ts : List TokenTree, bufferShapeCheck ts = false →
      buffer_argument ts =
        (.error ("Error trying to parse the buffer name for html_to!"), ts)) := by
  refine ⟨?_, ?_, ?_⟩
  · intro b s sp sc rest
    rfl
  · intro sp1 s1 s2 b s3 rest
    simp [buffer_argument, peek3]
  · intro ts h
    unfold bufferShapeCheck at h
    unfold buffer_argument
    split at h
    · simp at h
    · simp only [beq_eq_false_iff_ne] at h
      rw [if_neg h]
    · rfl

theorem C5_buffer_argument_shapes_witness :
    buffer_argument [TokenTree.term "buf" 0, TokenTree.op ',' .alone 1,
        TokenTree.literal (.str "x") 2] =
      (.ok ⟨TokenTree.term "buf" 0, .custom .alreadyBorrowed⟩,
        [TokenTree.literal (.str "x") 2]) ∧
    buffer_argument [TokenTree.op '.' .alone 0] =
      (.error ("Error trying to parse the buffer name for html_to!"),
        [TokenTree.op '.' .alone 0]) :=
  ⟨C5_buffer_argument_shapes.1 "buf" 0 .alone 1 [TokenTree.literal (.str "x") 2],
   C5_buffer_argument_shapes.2.2 [TokenTree.op '.' .alone 0] (by decide)⟩

end Maud

namespace Maud

/-! ## C6: plain-name parsing -/

/-- The input does not start with an identifier token. -/
def nonTermHead : List TokenTree → Bool
  | (.term _ _) :: _ => false
  | _ => true

/-- The name loop stops immediately on this input when in state `expect`:
the head token (if any) is neither a hyphen nor an identifier that may be
consumed in this state. -/
def nameStops (expect : Bool) : List TokenTree → Bool
  | [] => true
  | (.op c _ _) :: _ => !(c == '-')
  | (.term _ _) :: _ => !expect
  | _ => true

/-- Amended specification of the name loop: starting in state `expect`
(whether an identifier may be consumed directly), the run `taken` is
consumed and `rest` remains.  A hyphen always extends the run (entering
the expect-identifier state); an identifier extends it only right after a
hyphen; the run stops — with every consumed token, possibly a trailing or
repeated hyphen, kept in the name — at the first token neither rule
accepts. -/
inductive NameRun : Bool → List TokenTree → List TokenTree → Prop where
  | stop (expect : Bool) (input : List TokenTree)
      (h : nameStops expect input = true) : NameRun expect [] input
  | hyphen (expect : Bool) (sp : Spacing) (span : Span)
      (taken rest : List TokenTree) (h : NameRun true taken rest) :
      NameRun expect (.op '-' sp span :: taken) rest
  | ident (s : String) (span : Span) (taken rest : List TokenTree)
      (h : NameRun false taken rest) :
      NameRun true (.term s span :: taken) rest

/-- The name loop consumes exactly a `NameRun` and appends it verbatim to
the accumulated result. -/
theorem nameLoop_char : ∀ (result : List TokenTree) (expect : Bool)
    (input : List TokenTree),
    ∃ taken rest, input = taken ++ rest ∧
      Parser.nameLoop result expect input = (result ++ taken, rest) ∧
      NameRun expect taken rest := by
  intro result expect input
  induction result, expect, input using Parser.nameLoop.induct with
  | case1 result x sp span rest ih =>
      obtain ⟨taken, r2, heq, hloop, hrun⟩ := ih
      refine ⟨.op '-' sp span :: taken, r2, by simp [heq], ?_,
        NameRun.hyphen x sp span taken r2 hrun⟩
      simp only [Parser.nameLoop]
      rw [hloop]
      simp
  | case2 result t span rest ih =>
      obtain ⟨taken, r2, heq, hloop, hrun⟩ := ih
      refine ⟨.term t span :: taken, r2, by simp [heq], ?_,
        NameRun.ident t span taken r2 hrun⟩
      simp only [Parser.nameLoop, if_true]
      rw [hloop]
      simp
  | case3 result expect_ident t span rest hne =>
      have hx : expect_ident = false := by simpa using hne
      subst hx
      refine ⟨[], .term t span :: rest, by simp, ?_,
        NameRun.stop false _ (by simp [nameStops])⟩
      simp [Parser.nameLoop]
  | case4 result x input h1 h2 =>
      have hstop : nameStops x input = true := by
        cases input with
        | nil => rfl
        | cons t rest =>
            cases t with
            | literal lit sn => rfl
            | group d g sn => rfl
            | term s sn => exact ((h2 s sn rest rfl).elim)
            | op c sp sn =>
                have hc : ¬ c = '-' := fun hcc => h1 sp sn rest (by rw [hcc])
                simp [nameStops, hc]
      refine ⟨[], input, by simp, ?_, NameRun.stop x input hstop⟩
      rw [Parser.nameLoop.eq_def]
      split
      all_goals
        first
        | exact ((h1 _ _ _ rfl).elim)
        | exact ((h2 _ _ _ rfl).elim)
        | simp

/-- C6 counterexample: on `foo - - bar` (an identifier, two consecutive
hyphens, an identifier) the name parser consumes all four tokens — an even
number, impossible for "one identifier followed by (hyphen, identifier)
pairs", and with the second hyphen not followed directly by an
identifier. -/
theorem C6_counterexample :
    Parser.name ⟨false, [TokenTree.term "foo" 0, TokenTree.op '-' .alone 1,
        TokenTree.op '-' .alone 2, TokenTree.term "bar" 3]⟩ =
      (.ok [TokenTree.term "foo" 0, TokenTree.op '-' .alone 1,
        TokenTree.op '-' .alone 2, TokenTree.term "bar" 3], ⟨false, []⟩) ∧
    [TokenTree.term "foo" 0, TokenTree.op '-' .alone 1,
        TokenTree.op '-' .alone 2, TokenTree.term "bar" 3].length % 2 = 0 :=
  ⟨rfl, rfl⟩

/-- C6 amended: name parsing fails with "expected identifier" when the
first token is not an identifier; otherwise it consumes the leading
identifier and then a `NameRun`: hyphens always extend the name,
identifiers extend it only directly after a hyphen, and the name stops
(keeping every consumed token, including trailing or repeated hyphens) at
the first token neither rule accepts. -/
theorem C6_name_behavior :
    (∀ p : Parser, nonTermHead p.input = true →
      Parser.name p = (.error ("expected identifier"), p)) ∧
    (∀ (ia : Bool) (t : String) (span : Span) (rest : List TokenTree),
      ∃ taken remaining, rest = taken ++ remaining ∧
        Parser.name ⟨ia, .term t span :: rest⟩ =
          (.ok (.term t span :: taken), ⟨ia, remaining⟩) ∧
        NameRun false taken remaining) := by
  constructor
  · intro p hp
    rcases p with ⟨ia, input⟩
    cases input with
    | nil => rfl
    | cons t rest =>
        cases t with
        | literal lit sn => rfl
        | group d g sn => rfl
        | op c sp sn => rfl
        | term s sn => exact absurd hp (by simp [nonTermHead])
  · intro ia t span rest
    obtain ⟨taken, remaining, heq, hloop, hrun⟩ :=
      nameLoop_char [.term t span] false rest
    refine ⟨taken, remaining, heq, ?_, hrun⟩
    simp only [Parser.name]
    rw [hloop]
    simp

theorem C6_name_behavior_witness :
    Parser.name ⟨false, [TokenTree.op '.' .alone 0]⟩ =
      (.error ("expected identifier"), ⟨false, [TokenTree.op '.' .alone 0]⟩) ∧
    (∃ taken remaining,
      [TokenTree.op '-' .alone 1, TokenTree.op '.' .alone 2] =
        taken ++ remaining ∧
      Parser.name ⟨false, [TokenTree.term "a" 0, TokenTree.op '-' .alone 1,
          TokenTree.op '.' .alone 2]⟩ =
        (.ok (TokenTree.term "a" 0 :: taken), ⟨false, remaining⟩) ∧
      NameRun false taken remaining) :=
  ⟨C6_name_behavior.1 ⟨false, [TokenTree.op '.' .alone 0]⟩ rfl,
   C6_name_behavior.2 false "a" 0
     [TokenTree.op '-' .alone 1, TokenTree.op '.' .alone 2]⟩

end Maud

namespace Maud

/-! ## C8: streams of string literals and semicolons -/

/-- Runs of string literals and semicolons parse to exactly the
corresponding flat `Literal` list. -/
theorem markupsF_lits_semis :
    ∀ (ts : List TokenTree) (ia : Bool) (fuel : Nat),
      (∀ t ∈ ts, strLitOrSemi t = true) → ts.length < fuel →
      Parser.markupsF fuel ⟨ia, ts⟩ = .ok (litsOf ts, ⟨ia, []⟩) := by
  intro ts
  induction ts with
  | nil =>
      intro ia fuel _ hf
      obtain ⟨k, rfl⟩ : ∃ k, fuel = k + 1 := ⟨fuel - 1, by omega⟩
      rfl
  | cons t rest ih =>
      intro ia fuel hall hf
      obtain ⟨k, rfl⟩ : ∃ k, fuel = k + 1 := ⟨fuel - 1, by omega⟩
      have ht : strLitOrSemi t = true := hall t (by simp)
      have hrest : ∀ x ∈ rest, strLitOrSemi x = true :=
        fun x hx => hall x (by simp [hx])
      have hlen : rest.length < k := by simp at hf; omega
      have hih := ih ia k hrest hlen
      cases t with
      | literal lit span =>
          cases lit with
          | str s =>
              obtain ⟨k2, rfl⟩ : ∃ k2, k = k2 + 1 := ⟨k - 1, by omega⟩
              have hstep : Parser.markupsF (k2+1+1)
                  ⟨ia, TokenTree.literal (Lit.str s) span :: rest⟩ =
                  (match Parser.markupsF (k2+1) ⟨ia, rest⟩ with
                   | .error e => .error e
                   | .ok (ms, p2) => .ok (Markup.literal s span :: ms, p2)) := rfl
              rw [hstep, hih]
              rfl
          | nonStr raw => simp [strLitOrSemi, Lit.parse_string] at ht
      | term s span => simp [strLitOrSemi] at ht
      | group d g span => simp [strLitOrSemi] at ht
      | op c sp span =>
          have hc : c = ';' := by simpa [strLitOrSemi] using ht
          subst hc
          have hstep : Parser.markupsF (k+1)
              ⟨ia, TokenTree.op ';' sp span :: rest⟩ =
              Parser.markupsF k ⟨ia, rest⟩ := rfl
          rw [hstep]
          exact hih

/-- C8: for every input consisting solely of quoted string literals and
`;` operators, parsing succeeds and yields one `Literal` markup per
string literal, in input order, with no other node kinds. -/
theorem C8_literals_and_semicolons (ts : List TokenTree) (ia : Bool)
    (fuel : Nat) (hts : ∀ t ∈ ts, strLitOrSemi t = true)
    (hfuel : ts.length < fuel) :
    Parser.markupsF fuel ⟨ia, ts⟩ = .ok (litsOf ts, ⟨ia, []⟩) :=
  markupsF_lits_semis ts ia fuel hts hfuel

theorem C8_literals_and_semicolons_witness :
    Parser.markupsF 4 ⟨false, [TokenTree.literal (.str "a") 0,
        TokenTree.op ';' .alone 1, TokenTree.literal (.str "b") 2]⟩ =
      .ok (litsOf [TokenTree.literal (.str "a") 0,
        TokenTree.op ';' .alone 1, TokenTree.literal (.str "b") 2],
        ⟨false, []⟩) :=
  C8_literals_and_semicolons
    [TokenTree.literal (.str "a") 0, TokenTree.op ';' .alone 1,
      TokenTree.literal (.str "b") 2] false 4 (by decide) (by decide)

/-! ## C7: error messages of the @if chain -/

/-- With no top-level brace group in the remaining input, the head loop
of `if_expr` runs off the end of the input. -/
theorem if_exprF_no_brace :
    ∀ (ts : List TokenTree) (fuel : Nat) (head : List TokenTree)
      (segs : List Special) (ia : Bool),
      (∀ t ∈ ts, noBraceTok t = true) → ts.length < fuel →
      Parser.if_exprF fuel head segs ⟨ia, ts⟩ =
        .error ("unexpected end of @if expression") := by
  intro ts
  induction ts with
  | nil =>
      intro fuel head segs ia _ hf
      obtain ⟨k, rfl⟩ : ∃ k, fuel = k + 1 := ⟨fuel - 1, by omega⟩
      rfl
  | cons t rest ih =>
      intro fuel head segs ia hall hf
      obtain ⟨k, rfl⟩ : ∃ k, fuel = k + 1 := ⟨fuel - 1, by omega⟩
      have ht := hall t (by simp)
      have hrest : ∀ x ∈ rest, noBraceTok x = true :=
        fun x hx => hall x (by simp [hx])
      have hlen : rest.length < k := by simp at hf; omega
      have hih := ih k (head ++ [t]) segs ia hrest hlen
      cases t with
      | literal lit span => exact hih
      | term s span => exact hih
      | op c sp span => exact hih
      | group d g span =>
          cases d with
          | brace => simp [noBraceTok] at ht
          | parenthesis => exact hih
          | bracket => exact hih

/-- A consumed `@else` that continues with neither the `if` keyword nor a
brace group fails with "expected body for @else". -/
theorem else_if_exprF_no_body :
    ∀ (fuel : Nat) (segs : List Special) (ia : Bool) (sp : Spacing)
      (s es : Span) (rest : List TokenTree),
      noElseBody rest = true → 2 ≤ fuel →
      Parser.else_if_exprF fuel segs
          ⟨ia, .op '@' sp s :: .term "else" es :: rest⟩ =
        .error ("expected body for @else") := by
  intro fuel segs ia sp s es rest hne hf
  obtain ⟨k, rfl⟩ : ∃ k, fuel = k + 2 := ⟨fuel - 2, by omega⟩
  cases rest with
  | nil => rfl
  | cons r rrest =>
      cases r with
      | term i isp =>
          have hi : ¬ i = "if" := by simpa [noElseBody] using hne
          simp only [Parser.else_if_exprF, Parser.peek2, Parser.advance2,
            Parser.advance, Parser.next, Parser.peek]
          simp only [List.head?, if_true, reduceIte, hi, if_false]
          rfl
      | literal lit isp => rfl
      | op c csp isp => rfl
      | group d g isp =>
          cases d with
          | brace => simp [noElseBody] at hne
          | parenthesis => rfl
          | bracket => rfl

/-- C7: an `@if` whose remaining input holds no brace-delimited body
fails with "unexpected end of @if expression", and a trailing `@else`
followed by neither `if` nor a brace-delimited body fails with
"expected body for @else". -/
theorem C7_if_error_messages :
    (∀ (ts : List TokenTree) (fuel : Nat) (ia : Bool) (sp : Spacing)
        (s tsp : Span),
      (∀ t ∈ ts, noBraceTok t = true) → ts.length + 1 < fuel →
      Parser.markupF fuel ⟨ia, .op '@' sp s :: .term "if" tsp :: ts⟩ =
        .error ("unexpected end of @if expression")) ∧
    (∀ (fuel : Nat) (segs : List Special) (ia : Bool) (sp : Spacing)
        (s es : Span) (rest : List TokenTree),
      noElseBody rest = true → 2 ≤ fuel →
      Parser.else_if_exprF fuel segs
          ⟨ia, .op '@' sp s :: .term "else" es :: rest⟩ =
        .error ("expected body for @else")) := by
  constructor
  · intro ts fuel ia sp s tsp hnb hf
    obtain ⟨k, rfl⟩ : ∃ k, fuel = k + 1 := ⟨fuel - 1, by omega⟩
    have h := if_exprF_no_brace ts k [TokenTree.term "if" tsp] [] ia hnb
      (by omega)
    simp only [Parser.markupF, reduceIte]
    rw [h]
  · exact else_if_exprF_no_body

theorem C7_if_error_messages_witness :
    Parser.markupF 10 ⟨false, [TokenTree.op '@' .alone 0,
        TokenTree.term "if" 1, TokenTree.term "x" 2]⟩ =
      .error ("unexpected end of @if expression") ∧
    Parser.else_if_exprF 10 [] ⟨false, [TokenTree.op '@' .alone 0,
        TokenTree.term "else" 1, TokenTree.term "oops" 2]⟩ =
      .error ("expected body for @else") :=
  ⟨C7_if_error_messages.1 [TokenTree.term "x" 2] 10 false .alone 0 1
      (by decide) (by decide),
   C7_if_error_messages.2 10 [] false .alone 0 1 [TokenTree.term "oops" 2]
      (by decide) (by decide)⟩

end Maud

namespace Maud

/-! ## C3: the attribute loop backtracks fully on a failed attempt -/

/-- The speculative attempt of one `attrs` iteration matches one of the
four attribute forms: name then `=`, name then `?`, failed name then `.`,
failed name then `#`. -/
def Parser.attrFormCheck (p : Parser) : Bool :=
  match p.namespaced_name with
  | (maybe_name, attempt1) =>
      match attempt1.next with
      | (token_after, _) =>
          match maybe_name, token_after with
          | .ok _, some (.op '=' _ _) => true
          | .ok _, some (.op '?' _ _) => true
          | .error _, some (.op '.' _ _) => true
          | .error _, some (.op '#' _ _) => true
          | _, _ => false

/-- C3: when the speculative attempt matches none of the four attribute
forms, the attrs loop stops at once with the cursor exactly where it was
before the attempt and with only the already-committed accumulators
recorded. -/
theorem C3_attrs_full_backtrack (fuel : Nat)
    (classes_static : List (List TokenTree))
    (classes_toggled : List (List TokenTree × Toggler))
    (ids : List (List TokenTree)) (attrs : List Attribute) (p : Parser)
    (h : Parser.attrFormCheck p = false) :
    Parser.attrsF (fuel + 1) classes_static classes_toggled ids attrs p =
      .ok (Attrs.mk classes_static classes_toggled ids attrs, p) := by
  unfold Parser.attrFormCheck at h
  show (match p.namespaced_name with
    | (maybe_name, attempt1) =>
      match attempt1.next with
      | (token_after, attempt2) =>
        match maybe_name, token_after with
        | Except.ok name, Option.some (TokenTree.op '=' _ _) =>
            (match Parser.markupF fuel ⟨true, attempt2.input⟩ with
            | Except.error e => Except.error e
            | Except.ok (value, pv) =>
                Parser.attrsF fuel classes_static classes_toggled ids
                  (attrs ++ [Attribute.mk name (AttrType.normal value)])
                  ⟨attempt2.in_attr, pv.input⟩)
        | Except.ok name, Option.some (TokenTree.op '?' _ _) =>
            (match attempt2.attr_toggler with
            | (toggler, pt) =>
                Parser.attrsF fuel classes_static classes_toggled ids
                  (attrs ++ [Attribute.mk name (AttrType.empty toggler)]) pt)
        | Except.error _, Option.some (TokenTree.op '.' _ _) =>
            (match attempt2.name with
            | (Except.error e, _) => Except.error e
            | (Except.ok name, pn) =>
                match pn.attr_toggler with
                | (Option.some toggler, pt) =>
                    Parser.attrsF fuel classes_static
                      (classes_toggled ++ [(name, toggler)]) ids attrs pt
                | (Option.none, pt) =>
                    Parser.attrsF fuel (classes_static ++ [name])
                      classes_toggled ids attrs pt)
        | Except.error _, Option.some (TokenTree.op '#' _ _) =>
            (match attempt2.name with
            | (Except.error e, _) => Except.error e
            | (Except.ok name, pn) =>
                Parser.attrsF fuel classes_static classes_toggled
                  (ids ++ [name]) attrs pn)
        | _, _ =>
            Except.ok (Attrs.mk classes_static classes_toggled ids attrs, p)) =
      Except.ok (Attrs.mk classes_static classes_toggled ids attrs, p)
  rcases hnn : p.namespaced_name with ⟨mn, a1⟩
  simp only [hnn] at h ⊢
  rcases hnx : a1.next with ⟨ta, a2⟩
  simp only [hnx] at h ⊢
  split at h
  · simp at h
  · simp at h
  · simp at h
  · simp at h
  · rfl

theorem C3_attrs_full_backtrack_witness :
    Parser.attrsF 5 [] [] [] [] ⟨false, [TokenTree.literal (.str "x") 0]⟩ =
      .ok (Attrs.mk [] [] [] [], ⟨false, [TokenTree.literal (.str "x") 0]⟩) :=
  C3_attrs_full_backtrack 4 [] [] [] []
    ⟨false, [TokenTree.literal (.str "x") 0]⟩ rfl

end Maud

namespace Maud

/-! ## Characterization lemmas: opaque regions are verbatim input slices -/

/-- The `@while` head is the keyword plus exactly the input slice before
the body brace. -/
theorem while_exprF_char :
    ∀ (fuel : Nat) (head : List TokenTree) (p : Parser) (m : Markup)
      (p2 : Parser),
      Parser.while_exprF fuel head p = .ok (m, p2) →
      ∃ pre body bspan rest b,
        p.input = pre ++ TokenTree.group .brace body bspan :: rest ∧
        m = .special (.mk (head ++ pre) b) := by
  intro fuel
  induction fuel with
  | zero =>
      intro head p m p2 h
      exact absurd h (by simp [Parser.while_exprF])
  | succ k ih =>
      intro head p m p2 h
      rcases p with ⟨ia, input⟩
      cases input with
      | nil => exact absurd h (by simp [Parser.while_exprF])
      | cons t rest =>
          cases t with
          | literal lit span =>
              obtain ⟨pre, body, bspan, rest2, b, hin, hm⟩ :=
                ih (head ++ [TokenTree.literal lit span]) ⟨ia, rest⟩ m p2 h
              have hin2 : rest = pre ++ TokenTree.group .brace body bspan :: rest2 := hin
              exact ⟨TokenTree.literal lit span :: pre, body, bspan, rest2, b,
                by simp [hin2], by simpa using hm⟩
          | term s span =>
              obtain ⟨pre, body, bspan, rest2, b, hin, hm⟩ :=
                ih (head ++ [TokenTree.term s span]) ⟨ia, rest⟩ m p2 h
              have hin2 : rest = pre ++ TokenTree.group .brace body bspan :: rest2 := hin
              exact ⟨TokenTree.term s span :: pre, body, bspan, rest2, b,
                by simp [hin2], by simpa using hm⟩
          | op c sp span =>
              obtain ⟨pre, body, bspan, rest2, b, hin, hm⟩ :=
                ih (head ++ [TokenTree.op c sp span]) ⟨ia, rest⟩ m p2 h
              have hin2 : rest = pre ++ TokenTree.group .brace body bspan :: rest2 := hin
              exact ⟨TokenTree.op c sp span :: pre, body, bspan, rest2, b,
                by simp [hin2], by simpa using hm⟩
          | group d g span =>
              cases d with
              | parenthesis =>
              obtain ⟨pre, body, bspan, rest2, b, hin, hm⟩ :=
                ih (head ++ [TokenTree.group .parenthesis g span]) ⟨ia, rest⟩ m p2 h
              have hin2 : rest = pre ++ TokenTree.group .brace body bspan :: rest2 := hin
              exact ⟨TokenTree.group .parenthesis g span :: pre, body, bspan, rest2, b,
                by simp [hin2], by simpa using hm⟩
              | bracket =>
              obtain ⟨pre, body, bspan, rest2, b, hin, hm⟩ :=
                ih (head ++ [TokenTree.group .bracket g span]) ⟨ia, rest⟩ m p2 h
              have hin2 : rest = pre ++ TokenTree.group .brace body bspan :: rest2 := hin
              exact ⟨TokenTree.group .bracket g span :: pre, body, bspan, rest2, b,
                by simp [hin2], by simpa using hm⟩
              | brace =>
                  have h' : (match Parser.blockF k ⟨ia, rest⟩ g span with
                    | .error e => (.error e : Except String (Markup × Parser))
                    | .ok b => .ok (.special (.mk head b), ⟨ia, rest⟩)) =
                      .ok (m, p2) := h
                  rcases hb : Parser.blockF k ⟨ia, rest⟩ g span with e | b
                  · rw [hb] at h'
                    simp at h'
                  · rw [hb] at h'
                    simp only [Except.ok.injEq, Prod.mk.injEq] at h'
                    obtain ⟨hm, hp⟩ := h'
                    exact ⟨[], g, span, rest, b, by simp, by simp [← hm]⟩

end Maud

namespace Maud

/-- The second `@for` loop: the remaining head is exactly the input slice
before the body brace. -/
theorem for_bodyF_char :
    ∀ (fuel : Nat) (head : List TokenTree) (p : Parser) (m : Markup)
      (p2 : Parser),
      Parser.for_bodyF fuel head p = .ok (m, p2) →
      ∃ pre body bspan rest b,
        p.input = pre ++ TokenTree.group .brace body bspan :: rest ∧
        m = .special (.mk (head ++ pre) b) := by
  intro fuel
  induction fuel with
  | zero =>
      intro head p m p2 h
      exact absurd h (by simp [Parser.for_bodyF])
  | succ k ih =>
      intro head p m p2 h
      rcases p with ⟨ia, input⟩
      cases input with
      | nil => exact absurd h (by simp [Parser.for_bodyF])
      | cons t rest =>
          cases t with
          | literal lit span =>
              obtain ⟨pre, body, bspan, rest2, b, hin, hm⟩ :=
                ih (head ++ [TokenTree.literal lit span]) ⟨ia, rest⟩ m p2 h
              have hin2 : rest = pre ++ TokenTree.group .brace body bspan :: rest2 := hin
              exact ⟨TokenTree.literal lit span :: pre, body, bspan, rest2, b,
                by simp [hin2], by simpa using hm⟩
          | term s span =>
              obtain ⟨pre, body, bspan, rest2, b, hin, hm⟩ :=
                ih (head ++ [TokenTree.term s span]) ⟨ia, rest⟩ m p2 h
              have hin2 : rest = pre ++ TokenTree.group .brace body bspan :: rest2 := hin
              exact ⟨TokenTree.term s span :: pre, body, bspan, rest2, b,
                by simp [hin2], by simpa using hm⟩
          | op c sp span =>
              obtain ⟨pre, body, bspan, rest2, b, hin, hm⟩ :=
                ih (head ++ [TokenTree.op c sp span]) ⟨ia, rest⟩ m p2 h
              have hin2 : rest = pre ++ TokenTree.group .brace body bspan :: rest2 := hin
              exact ⟨TokenTree.op c sp span :: pre, body, bspan, rest2, b,
                by simp [hin2], by simpa using hm⟩
          | group d g span =>
              cases d with
              | parenthesis =>
              obtain ⟨pre, body, bspan, rest2, b, hin, hm⟩ :=
                ih (head ++ [TokenTree.group .parenthesis g span]) ⟨ia, rest⟩ m p2 h
              have hin2 : rest = pre ++ TokenTree.group .brace body bspan :: rest2 := hin
              exact ⟨TokenTree.group .parenthesis g span :: pre, body, bspan, rest2, b,
                by simp [hin2], by simpa using hm⟩
              | bracket =>
              obtain ⟨pre, body, bspan, rest2, b, hin, hm⟩ :=
                ih (head ++ [TokenTree.group .bracket g span]) ⟨ia, rest⟩ m p2 h
              have hin2 : rest = pre ++ TokenTree.group .brace body bspan :: rest2 := hin
              exact ⟨TokenTree.group .bracket g span :: pre, body, bspan, rest2, b,
                by simp [hin2], by simpa using hm⟩
              | brace =>
                  have h2 : (match Parser.blockF k ⟨ia, rest⟩ g span with
                    | .error e => (.error e : Except String (Markup × Parser))
                    | .ok b => .ok (.special (.mk head b), ⟨ia, rest⟩)) =
                      .ok (m, p2) := h
                  rcases hb : Parser.blockF k ⟨ia, rest⟩ g span with e | b
                  · rw [hb] at h2
                    simp at h2
                  · rw [hb] at h2
                    simp only [Except.ok.injEq, Prod.mk.injEq] at h2
                    obtain ⟨hm, hp⟩ := h2
                    exact ⟨[], g, span, rest, b, by simp, by simp [← hm]⟩

/-- The `@for` head is the keyword plus exactly the input slice before
the body brace (the `in` keyword included in place). -/
theorem for_exprF_char :
    ∀ (fuel : Nat) (head : List TokenTree) (p : Parser) (m : Markup)
      (p2 : Parser),
      Parser.for_exprF fuel head p = .ok (m, p2) →
      ∃ pre body bspan rest b,
        p.input = pre ++ TokenTree.group .brace body bspan :: rest ∧
        m = .special (.mk (head ++ pre) b) := by
  intro fuel
  induction fuel with
  | zero =>
      intro head p m p2 h
      exact absurd h (by simp [Parser.for_exprF])
  | succ k ih =>
      intro head p m p2 h
      rcases p with ⟨ia, input⟩
      cases input with
      | nil => exact absurd h (by simp [Parser.for_exprF])
      | cons t rest =>
          cases t with
          | literal lit span =>
              obtain ⟨pre, body, bspan, rest2, b, hin, hm⟩ :=
                ih (head ++ [TokenTree.literal lit span]) ⟨ia, rest⟩ m p2 h
              have hin2 : rest = pre ++ TokenTree.group .brace body bspan :: rest2 := hin
              exact ⟨TokenTree.literal lit span :: pre, body, bspan, rest2, b,
                by simp [hin2], by simpa using hm⟩
          | op c sp span =>
              obtain ⟨pre, body, bspan, rest2, b, hin, hm⟩ :=
                ih (head ++ [TokenTree.op c sp span]) ⟨ia, rest⟩ m p2 h
              have hin2 : rest = pre ++ TokenTree.group .brace body bspan :: rest2 := hin
              exact ⟨TokenTree.op c sp span :: pre, body, bspan, rest2, b,
                by simp [hin2], by simpa using hm⟩
          | group d g span =>
              cases d with
              | parenthesis =>
              obtain ⟨pre, body, bspan, rest2, b, hin, hm⟩ :=
                ih (head ++ [TokenTree.group .parenthesis g span]) ⟨ia, rest⟩ m p2 h
              have hin2 : rest = pre ++ TokenTree.group .brace body bspan :: rest2 := hin
              exact ⟨TokenTree.group .parenthesis g span :: pre, body, bspan, rest2, b,
                by simp [hin2], by simpa using hm⟩
              | bracket =>
              obtain ⟨pre, body, bspan, rest2, b, hin, hm⟩ :=
                ih (head ++ [TokenTree.group .bracket g span]) ⟨ia, rest⟩ m p2 h
              have hin2 : rest = pre ++ TokenTree.group .brace body bspan :: rest2 := hin
              exact ⟨TokenTree.group .bracket g span :: pre, body, bspan, rest2, b,
                by simp [hin2], by simpa using hm⟩
              | brace =>
              obtain ⟨pre, body, bspan, rest2, b, hin, hm⟩ :=
                ih (head ++ [TokenTree.group .brace g span]) ⟨ia, rest⟩ m p2 h
              have hin2 : rest = pre ++ TokenTree.group .brace body bspan :: rest2 := hin
              exact ⟨TokenTree.group .brace g span :: pre, body, bspan, rest2, b,
                by simp [hin2], by simpa using hm⟩
          | term s span =>
              by_cases hs : s = "in"
              · subst hs
                have h2 : Parser.for_bodyF k
                    (head ++ [TokenTree.term ("in") span]) ⟨ia, rest⟩ =
                    .ok (m, p2) := h
                obtain ⟨pre, body, bspan, rest2, b, hin, hm⟩ :=
                  for_bodyF_char k (head ++ [TokenTree.term ("in") span])
                    ⟨ia, rest⟩ m p2 h2
                have hin2 : rest = pre ++ TokenTree.group .brace body bspan :: rest2 := hin
                exact ⟨TokenTree.term ("in") span :: pre, body, bspan, rest2, b,
                  by simp [hin2], by simpa using hm⟩
              · have h2 : (if s = "in" then
                    Parser.for_bodyF k (head ++ [TokenTree.term s span]) ⟨ia, rest⟩
                  else
                    Parser.for_exprF k (head ++ [TokenTree.term s span]) ⟨ia, rest⟩) =
                    .ok (m, p2) := h
                rw [if_neg hs] at h2
                obtain ⟨pre, body, bspan, rest2, b, hin, hm⟩ :=
                  ih (head ++ [TokenTree.term s span]) ⟨ia, rest⟩ m p2 h2
                have hin2 : rest = pre ++ TokenTree.group .brace body bspan :: rest2 := hin
                exact ⟨TokenTree.term s span :: pre, body, bspan, rest2, b,
                  by simp [hin2], by simpa using hm⟩

/-- The `@match` head is the keyword plus exactly the input slice before
the arms brace, and the result is always a `matchExpr`. -/
theorem match_exprF_char :
    ∀ (fuel : Nat) (head : List TokenTree) (p : Parser) (m : Markup)
      (p2 : Parser),
      Parser.match_exprF fuel head p = .ok (m, p2) →
      ∃ pre body bspan rest arms,
        p.input = pre ++ TokenTree.group .brace body bspan :: rest ∧
        m = .matchExpr (head ++ pre) arms bspan := by
  intro fuel
  induction fuel with
  | zero =>
      intro head p m p2 h
      exact absurd h (by simp [Parser.match_exprF])
  | succ k ih =>
      intro head p m p2 h
      rcases p with ⟨ia, input⟩
      cases input with
      | nil => exact absurd h (by simp [Parser.match_exprF])
      | cons t rest =>
          cases t with
          | literal lit span =>
              obtain ⟨pre, body, bspan, rest2, b, hin, hm⟩ :=
                ih (head ++ [TokenTree.literal lit span]) ⟨ia, rest⟩ m p2 h
              have hin2 : rest = pre ++ TokenTree.group .brace body bspan :: rest2 := hin
              exact ⟨TokenTree.literal lit span :: pre, body, bspan, rest2, b,
                by simp [hin2], by simpa using hm⟩
          | term s span =>
              obtain ⟨pre, body, bspan, rest2, b, hin, hm⟩ :=
                ih (head ++ [TokenTree.term s span]) ⟨ia, rest⟩ m p2 h
              have hin2 : rest = pre ++ TokenTree.group .brace body bspan :: rest2 := hin
              exact ⟨TokenTree.term s span :: pre, body, bspan, rest2, b,
                by simp [hin2], by simpa using hm⟩
          | op c sp span =>
              obtain ⟨pre, body, bspan, rest2, b, hin, hm⟩ :=
                ih (head ++ [TokenTree.op c sp span]) ⟨ia, rest⟩ m p2 h
              have hin2 : rest = pre ++ TokenTree.group .brace body bspan :: rest2 := hin
              exact ⟨TokenTree.op c sp span :: pre, body, bspan, rest2, b,
                by simp [hin2], by simpa using hm⟩
          | group d g span =>
              cases d with
              | parenthesis =>
              obtain ⟨pre, body, bspan, rest2, b, hin, hm⟩ :=
                ih (head ++ [TokenTree.group .parenthesis g span]) ⟨ia, rest⟩ m p2 h
              have hin2 : rest = pre ++ TokenTree.group .brace body bspan :: rest2 := hin
              exact ⟨TokenTree.group .parenthesis g span :: pre, body, bspan, rest2, b,
                by simp [hin2], by simpa using hm⟩
              | bracket =>
              obtain ⟨pre, body, bspan, rest2, b, hin, hm⟩ :=
                ih (head ++ [TokenTree.group .bracket g span]) ⟨ia, rest⟩ m p2 h
              have hin2 : rest = pre ++ TokenTree.group .brace body bspan :: rest2 := hin
              exact ⟨TokenTree.group .bracket g span :: pre, body, bspan, rest2, b,
                by simp [hin2], by simpa using hm⟩
              | brace =>
                  have h2 : (match Parser.match_armsF k ⟨ia, g⟩ with
                    | .error e => (.error e : Except String (Markup × Parser))
                    | .ok (arms, _) =>
                        .ok (.matchExpr head arms span, ⟨ia, rest⟩)) =
                      .ok (m, p2) := h
                  rcases ha : Parser.match_armsF k ⟨ia, g⟩ with e | ap
                  · rw [ha] at h2
                    simp at h2
                  · rcases ap with ⟨arms, pf⟩
                    rw [ha] at h2
                    simp only [Except.ok.injEq, Prod.mk.injEq] at h2
                    obtain ⟨hm, hp⟩ := h2
                    exact ⟨[], g, span, rest, arms, by simp, by simp [← hm]⟩

end Maud

namespace Maud

/-- A bare `@else` segment stores exactly the singleton else keyword as
its head. -/
theorem else_bodyF_char :
    ∀ (fuel : Nat) (segs : List Special) (et : TokenTree) (p : Parser)
      (segs2 : List Special) (p2 : Parser),
      Parser.else_bodyF fuel segs et p = .ok (segs2, p2) →
      ∃ b, segs2 = segs ++ [Special.mk [et] b] := by
  intro fuel segs et p segs2 p2 h
  cases fuel with
  | zero => exact absurd h (by simp [Parser.else_bodyF])
  | succ k =>
      rcases p with ⟨ia, input⟩
      cases input with
      | nil => exact absurd h (by simp [Parser.else_bodyF])
      | cons t rest =>
          cases t with
          | literal lit span => exact absurd h (by simp [Parser.else_bodyF])
          | term s span => exact absurd h (by simp [Parser.else_bodyF])
          | op c sp span => exact absurd h (by simp [Parser.else_bodyF])
          | group d g span =>
              cases d with
              | parenthesis => exact absurd h (by simp [Parser.else_bodyF])
              | bracket => exact absurd h (by simp [Parser.else_bodyF])
              | brace =>
                  have h2 : (match Parser.blockF k ⟨ia, rest⟩ g span with
                    | .error e =>
                        (.error e : Except String (List Special × Parser))
                    | .ok body =>
                        .ok (segs ++ [Special.mk [et] body], ⟨ia, rest⟩)) =
                      .ok (segs2, p2) := h
                  rcases hb : Parser.blockF k ⟨ia, rest⟩ g span with e | b
                  · rw [hb] at h2
                    simp at h2
                  · rw [hb] at h2
                    simp only [Except.ok.injEq, Prod.mk.injEq] at h2
                    exact ⟨b, h2.1.symm⟩

/-- Joint extension lemma for the if/else chain: `if_expr` appends one
segment whose head is its prefix plus the verbatim pre-brace input slice,
followed by whatever the else chain appends; `else_if_expr` only ever
appends segments. -/
theorem if_else_extension :
    ∀ fuel : Nat,
      (∀ (head : List TokenTree) (segs : List Special) (p : Parser)
          (segs2 : List Special) (p2 : Parser),
        Parser.if_exprF fuel head segs p = .ok (segs2, p2) →
        ∃ pre body bspan rest b extra,
          p.input = pre ++ TokenTree.group .brace body bspan :: rest ∧
          segs2 = segs ++ Special.mk (head ++ pre) b :: extra) ∧
      (∀ (segs : List Special) (p : Parser) (segs2 : List Special)
          (p2 : Parser),
        Parser.else_if_exprF fuel segs p = .ok (segs2, p2) →
        ∃ extra, segs2 = segs ++ extra) := by
  intro fuel
  induction fuel with
  | zero =>
      constructor
      · intro head segs p segs2 p2 h
        exact absurd h (by simp [Parser.if_exprF])
      · intro segs p segs2 p2 h
        exact absurd h (by simp [Parser.else_if_exprF])
  | succ k ih =>
      obtain ⟨ihI, ihE⟩ := ih
      constructor
      · intro head segs p segs2 p2 h
        rcases p with ⟨ia, input⟩
        cases input with
        | nil => exact absurd h (by simp [Parser.if_exprF])
        | cons t rest =>
            cases t with
            | literal lit span =>
                obtain ⟨pre, body, bspan, rest2, b, extra, hin, hsegs⟩ :=
                  ihI (head ++ [TokenTree.literal lit span]) segs ⟨ia, rest⟩
                    segs2 p2 h
                have hin2 : rest =
                    pre ++ TokenTree.group .brace body bspan :: rest2 := hin
                exact ⟨TokenTree.literal lit span :: pre, body, bspan, rest2,
                  b, extra, by simp [hin2], by simpa using hsegs⟩
            | term s span =>
                obtain ⟨pre, body, bspan, rest2, b, extra, hin, hsegs⟩ :=
                  ihI (head ++ [TokenTree.term s span]) segs ⟨ia, rest⟩
                    segs2 p2 h
                have hin2 : rest =
                    pre ++ TokenTree.group .brace body bspan :: rest2 := hin
                exact ⟨TokenTree.term s span :: pre, body, bspan, rest2,
                  b, extra, by simp [hin2], by simpa using hsegs⟩
            | op c sp span =>
                obtain ⟨pre, body, bspan, rest2, b, extra, hin, hsegs⟩ :=
                  ihI (head ++ [TokenTree.op c sp span]) segs ⟨ia, rest⟩
                    segs2 p2 h
                have hin2 : rest =
                    pre ++ TokenTree.group .brace body bspan :: rest2 := hin
                exact ⟨TokenTree.op c sp span :: pre, body, bspan, rest2,
                  b, extra, by simp [hin2], by simpa using hsegs⟩
            | group d g span =>
                cases d with
                | parenthesis =>
                    obtain ⟨pre, body, bspan, rest2, b, extra, hin, hsegs⟩ :=
                      ihI (head ++ [TokenTree.group .parenthesis g span]) segs
                        ⟨ia, rest⟩ segs2 p2 h
                    have hin2 : rest =
                        pre ++ TokenTree.group .brace body bspan :: rest2 := hin
                    exact ⟨TokenTree.group .parenthesis g span :: pre, body,
                      bspan, rest2, b, extra, by simp [hin2],
                      by simpa using hsegs⟩
                | bracket =>
                    obtain ⟨pre, body, bspan, rest2, b, extra, hin, hsegs⟩ :=
                      ihI (head ++ [TokenTree.group .bracket g span]) segs
                        ⟨ia, rest⟩ segs2 p2 h
                    have hin2 : rest =
                        pre ++ TokenTree.group .brace body bspan :: rest2 := hin
                    exact ⟨TokenTree.group .bracket g span :: pre, body,
                      bspan, rest2, b, extra, by simp [hin2],
                      by simpa using hsegs⟩
                | brace =>
                    have h2 : (match Parser.blockF k ⟨ia, rest⟩ g span with
                      | .error e =>
                          (.error e : Except String (List Special × Parser))
                      | .ok b =>
                          Parser.else_if_exprF k (segs ++ [Special.mk head b])
                            ⟨ia, rest⟩) = .ok (segs2, p2) := h
                    rcases hb : Parser.blockF k ⟨ia, rest⟩ g span with e | b
                    · rw [hb] at h2
                      simp at h2
                    · rw [hb] at h2
                      obtain ⟨extra, hsegs⟩ :=
                        ihE (segs ++ [Special.mk head b]) ⟨ia, rest⟩ segs2 p2 h2
                      refine ⟨[], g, span, rest, b, extra, by simp, ?_⟩
                      rw [hsegs]
                      simp
      · intro segs p segs2 p2 h
        rw [Parser.else_if_exprF] at h
        split at h
        · split at h
          · split at h
            · split at h
              · obtain ⟨pre, body, bspan, rest2, b, extra, hin, hsegs⟩ :=
                  ihI _ segs _ segs2 p2 h
                exact ⟨_, hsegs⟩
              · obtain ⟨b, hsegs⟩ := else_bodyF_char k segs _ _ segs2 p2 h
                exact ⟨_, hsegs⟩
            · obtain ⟨b, hsegs⟩ := else_bodyF_char k segs _ _ segs2 p2 h
              exact ⟨_, hsegs⟩
          · simp only [Except.ok.injEq, Prod.mk.injEq] at h
            exact ⟨[], by simp [h.1.symm]⟩
        · simp only [Except.ok.injEq, Prod.mk.injEq] at h
          exact ⟨[], by simp [h.1.symm]⟩

end Maud

namespace Maud

/-- The first `@let` loop returns its accumulator plus the verbatim
consumed slice, up to and including the `=`. -/
theorem letLoop1_char :
    ∀ (input tokens tokens2 rest : List TokenTree),
      Parser.letLoop1 tokens input = .ok (tokens2, rest) →
      ∃ taken, input = taken ++ rest ∧ tokens2 = tokens ++ taken := by
  intro input
  induction input with
  | nil =>
      intro tokens tokens2 rest h
      exact absurd h (by simp [Parser.letLoop1])
  | cons t itl ih =>
      intro tokens tokens2 rest h
      rw [Parser.letLoop1.eq_def] at h
      split at h
      · rename_i heq
        simp only [Except.ok.injEq, Prod.mk.injEq] at h
        obtain ⟨ht, hr⟩ := h
        refine ⟨_, ?_, ht.symm⟩
        rw [hr] at heq
        simpa using heq
      · rename_i t2 rest2 hnm heq
        injection heq with h1 h2
        subst h1
        subst h2
        obtain ⟨taken, hi, ht⟩ := ih _ tokens2 rest h
        exact ⟨t :: taken, by simp [hi], by simpa using ht⟩
      · simp at h

/-- The second `@let` loop returns its accumulator plus the verbatim
consumed slice, up to and including the `;`. -/
theorem letLoop2_char :
    ∀ (input tokens tokens2 rest : List TokenTree),
      Parser.letLoop2 tokens input = .ok (tokens2, rest) →
      ∃ taken, input = taken ++ rest ∧ tokens2 = tokens ++ taken := by
  intro input
  induction input with
  | nil =>
      intro tokens tokens2 rest h
      exact absurd h (by simp [Parser.letLoop2])
  | cons t itl ih =>
      intro tokens tokens2 rest h
      rw [Parser.letLoop2.eq_def] at h
      split at h
      · rename_i heq
        simp only [Except.ok.injEq, Prod.mk.injEq] at h
        obtain ⟨ht, hr⟩ := h
        refine ⟨_, ?_, ht.symm⟩
        rw [hr] at heq
        simpa using heq
      · rename_i t2 rest2 hnm heq
        injection heq with h1 h2
        subst h1
        subst h2
        obtain ⟨taken, hi, ht⟩ := ih _ tokens2 rest h
        exact ⟨t :: taken, by simp [hi], by simpa using ht⟩
      · simp at h

/-- `@let` stores exactly the keyword plus the consumed input slice,
verbatim. -/
theorem let_expr_char (keyword : TokenTree) (p : Parser) (m : Markup)
    (p2 : Parser) (h : Parser.let_expr keyword p = .ok (m, p2)) :
    ∃ taken, p.input = taken ++ p2.input ∧ m = .letExpr (keyword :: taken) := by
  unfold Parser.let_expr at h
  rcases h1 : Parser.letLoop1 [keyword] p.input with e | tr
  · simp [h1] at h
  · rcases tr with ⟨tokens, rest⟩
    simp only [h1] at h
    rcases h2 : Parser.letLoop2 tokens rest with e | tr2
    · simp [h2] at h
    · rcases tr2 with ⟨tokens2, rest2⟩
      simp only [h2] at h
      simp only [Except.ok.injEq, Prod.mk.injEq] at h
      obtain ⟨hm, hp⟩ := h
      obtain ⟨taken1, hi1, ht1⟩ := letLoop1_char p.input [keyword] tokens rest h1
      obtain ⟨taken2, hi2, ht2⟩ := letLoop2_char rest tokens tokens2 rest2 h2
      subst hp
      refine ⟨taken1 ++ taken2, ?_, ?_⟩
      · simp [hi1, hi2]
      · rw [← hm, ht2, ht1]
        simp

end Maud

namespace Maud

/-- The expression body of a match arm: the input up to the first
top-level comma is consumed verbatim, re-parsed as a block, and the arm
head is passed through unchanged. -/
theorem match_arm_exprF_char :
    ∀ (fuel : Nat) (head : List TokenTree) (sp0 : Span)
      (acc : List TokenTree) (p : Parser) (r : Option Special) (p2 : Parser),
      Parser.match_arm_exprF fuel head sp0 acc p = .ok (r, p2) →
      ∃ run csp csc rest b bf bspan,
        p.input = run ++ TokenTree.op ',' csp csc :: rest ∧
        p2 = ⟨p.in_attr, rest⟩ ∧
        Parser.blockF bf ⟨p.in_attr, rest⟩ (acc ++ run) bspan = .ok b ∧
        r = some (Special.mk head b) := by
  intro fuel
  induction fuel with
  | zero =>
      intro head sp0 acc p r p2 h
      exact absurd h (by simp [Parser.match_arm_exprF])
  | succ k ih =>
      intro head sp0 acc p r p2 h
      rw [Parser.match_arm_exprF.eq_def] at h
      split at h
      · simp at h
      · rename_i k2 heqF
        obtain rfl : k = k2 := by omega
        split at h
        · rename_i sp1 s1 rest3 heq
          have hinput : p.input = TokenTree.op ',' sp1 s1 :: rest3 := heq
          rcases hb : Parser.blockF k ⟨p.in_attr, rest3⟩ acc sp0 with e | b
          · rw [hb] at h
            simp at h
          · rw [hb] at h
            simp only [Except.ok.injEq, Prod.mk.injEq] at h
            obtain ⟨hr, hp⟩ := h
            exact ⟨[], sp1, s1, rest3, b, k, sp0, by simp [hinput], hp.symm,
              by simpa using hb, hr.symm⟩
        · rename_i t rest3 hnm heq
          have hinput : p.input = t :: rest3 := heq
          obtain ⟨run, csp, csc, rest2, b, bf, bspan, hin, hp2, hblk, hr⟩ :=
            ih head (max sp0 (TokenTree.span t)) (acc ++ [t])
              ⟨p.in_attr, rest3⟩ r p2 h
          have hin2 : rest3 = run ++ TokenTree.op ',' csp csc :: rest2 := hin
          have hblk2 : Parser.blockF bf ⟨p.in_attr, rest2⟩
              (acc ++ (t :: run)) bspan = .ok b := by
            simpa using hblk
          exact ⟨t :: run, csp, csc, rest2, b, bf, bspan,
            by simp [hinput, hin2], hp2, hblk2, hr⟩
        · simp at h

end Maud

namespace Maud

/-- The optional trailing comma after a brace-bodied match arm does not
change the returned arm value. -/
theorem trailing_comma_fst (rest3 : List TokenTree) (v : Option Special)
    (ia : Bool) (r : Option Special) (p2 : Parser)
    (h : (match rest3 with
          | TokenTree.op ',' _ _ :: rest2 =>
              Except.ok (v, (⟨ia, rest2⟩ : Parser))
          | _ => Except.ok (v, (⟨ia, rest3⟩ : Parser))) =
        (.ok (r, p2) : Except String (Option Special × Parser))) : r = v := by
  split at h <;> simp_all

/-- The body stage of a match arm never changes the already-collected
arm head. -/
theorem match_arm_bodyF_char :
    ∀ (fuel : Nat) (head : List TokenTree) (p : Parser) (r : Option Special)
      (p2 : Parser),
      Parser.match_arm_bodyF fuel head p = .ok (r, p2) →
      ∃ b, r = some (Special.mk head b) := by
  intro fuel head p r p2 h
  cases fuel with
  | zero => exact absurd h (by simp [Parser.match_arm_bodyF])
  | succ k =>
      rw [Parser.match_arm_bodyF.eq_def] at h
      split at h
      · simp at h
      · rename_i k2 heqF
        obtain rfl : k = k2 := by omega
        split at h
        · rename_i g span rest3 heq
          rcases hblk : Parser.blockF k ⟨p.in_attr, rest3⟩ g span with e | bv
          · rw [hblk] at h
            simp at h
          · rw [hblk] at h
            exact ⟨bv, trailing_comma_fst rest3 (some (Special.mk head bv))
              p.in_attr r p2 h⟩
        · rename_i first rest3 hnm heq
          obtain ⟨run, csp, csc, rest2, b, bf, bspan, hin, hp2, hblk, hr⟩ :=
            match_arm_exprF_char k head (TokenTree.span first) [first]
              ⟨p.in_attr, rest3⟩ r p2 h
          exact ⟨b, hr⟩
        · simp at h

/-- The pattern loop of a match arm consumes a verbatim prefix of the
input as the arm head. -/
theorem match_arm_headF_char :
    ∀ (fuel : Nat) (head : List TokenTree) (p : Parser) (hd : List TokenTree)
      (b : Block) (p2 : Parser),
      Parser.match_arm_headF fuel head p = .ok (some (Special.mk hd b), p2) →
      ∃ taken rest, p.input = taken ++ rest ∧ hd = head ++ taken := by
  intro fuel
  induction fuel with
  | zero =>
      intro head p hd b p2 h
      exact absurd h (by simp [Parser.match_arm_headF])
  | succ k ih =>
      intro head p hd b p2 h
      rw [Parser.match_arm_headF.eq_def] at h
      split at h
      · simp at h
      · rename_i k2 heqF
        obtain rfl : k = k2 := by omega
        split at h
        · rename_i s1 sp2 s2 heq
          obtain ⟨b2, hr⟩ := match_arm_bodyF_char k
            (head ++ [TokenTree.op '=' .joint s1, TokenTree.op '>' sp2 s2])
            _ _ p2 h
          simp only [Option.some.injEq, Special.mk.injEq] at hr
          obtain ⟨hhd, _⟩ := hr
          rcases p with ⟨ia, input⟩
          cases input with
          | nil => simp [Parser.peek2] at heq
          | cons u rest =>
              cases rest with
              | nil =>
                  simp [Parser.peek2] at heq
              | cons u2 rest2 =>
                  simp only [Parser.peek2, List.head?, Option.some.injEq,
                    Prod.mk.injEq] at heq
                  obtain ⟨hu, hu2⟩ := heq
                  subst hu
                  obtain rfl : u2 = TokenTree.op '>' sp2 s2 := by
                    simpa using hu2
                  exact ⟨[TokenTree.op '=' .joint s1,
                    TokenTree.op '>' sp2 s2], rest2, by simp, hhd⟩
        · rename_i t snd hnm heq
          obtain ⟨taken, rest2, hin, hhd⟩ :=
            ih (head ++ [t]) _ hd b p2 h
          rcases p with ⟨ia, input⟩
          cases input with
          | nil => simp [Parser.peek2] at heq
          | cons u rest =>
              simp only [Parser.peek2, Option.some.injEq,
                Prod.mk.injEq] at heq
              obtain ⟨hu, _⟩ := heq
              subst hu
              have hin2 : rest = taken ++ rest2 := hin
              exact ⟨u :: taken, rest2, by simp [hin2], by simpa using hhd⟩
        · split at h
          · simp at h
          · simp at h

/-- A completed match arm head is a verbatim prefix of the arm input. -/
theorem match_armF_char :
    ∀ (fuel : Nat) (p : Parser) (hd : List TokenTree) (b : Block)
      (p2 : Parser),
      Parser.match_armF fuel p = .ok (some (Special.mk hd b), p2) →
      ∃ taken rest, p.input = taken ++ rest ∧ hd = taken := by
  intro fuel p hd b p2 h
  cases fuel with
  | zero => exact absurd h (by simp [Parser.match_armF])
  | succ k =>
      obtain ⟨taken, rest, hin, hhd⟩ :=
        match_arm_headF_char k [] p hd b p2 h
      exact ⟨taken, rest, hin, by simpa using hhd⟩

end Maud

namespace Maud

/-- C1: every opaque region the parser stores is a verbatim slice of its
input: `Splice.expr` is the untouched inner stream of the parenthesis
group; `Toggler.cond` the untouched inner stream of the bracket group;
`Let.tokens` is the keyword plus exactly the consumed slice; the
`Special.head` built by `@while`, `@for`, the `@if` chain, a bare
`@else`, and a match arm is the prefix/keyword plus exactly the consumed
input slice, with no token transformed, reordered, or dropped. -/
theorem C1_opaque_regions_verbatim :
    (∀ (fuel : Nat) (ia : Bool) (e : List TokenTree) (s : Span)
        (rest : List TokenTree),
      Parser.markupF (fuel + 1) ⟨ia, .group .parenthesis e s :: rest⟩ =
        .ok (.splice e, ⟨ia, rest⟩)) ∧
    (∀ (ia : Bool) (c : List TokenTree) (s : Span) (rest : List TokenTree),
      Parser.attr_toggler ⟨ia, .group .bracket c s :: rest⟩ =
        (some ⟨c, s⟩, ⟨ia, rest⟩)) ∧
    (∀ (keyword : TokenTree) (p : Parser) (m : Markup) (p2 : Parser),
      Parser.let_expr keyword p = .ok (m, p2) →
      ∃ taken, p.input = taken ++ p2.input ∧
        m = .letExpr (keyword :: taken)) ∧
    (∀ (fuel : Nat) (head : List TokenTree) (p : Parser) (m : Markup)
        (p2 : Parser),
      Parser.while_exprF fuel head p = .ok (m, p2) →
      ∃ pre body bspan rest b,
        p.input = pre ++ TokenTree.group .brace body bspan :: rest ∧
        m = .special (.mk (head ++ pre) b)) ∧
    (∀ (fuel : Nat) (head : List TokenTree) (p : Parser) (m : Markup)
        (p2 : Parser),
      Parser.for_exprF fuel head p = .ok (m, p2) →
      ∃ pre body bspan rest b,
        p.input = pre ++ TokenTree.group .brace body bspan :: rest ∧
        m = .special (.mk (head ++ pre) b)) ∧
    (∀ (fuel : Nat) (head : List TokenTree) (segs : List Special)
        (p : Parser) (segs2 : List Special) (p2 : Parser),
      Parser.if_exprF fuel head segs p = .ok (segs2, p2) →
      ∃ pre body bspan rest b extra,
        p.input = pre ++ TokenTree.group .brace body bspan :: rest ∧
        segs2 = segs ++ Special.mk (head ++ pre) b :: extra) ∧
    (∀ (fuel : Nat) (segs : List Special) (et : TokenTree) (p : Parser)
        (segs2 : List Special) (p2 : Parser),
      Parser.else_bodyF fuel segs et p = .ok (segs2, p2) →
      ∃ b, segs2 = segs ++ [Special.mk [et] b]) ∧
    (∀ (fuel : Nat) (p : Parser) (hd : List TokenTree) (b : Block)
        (p2 : Parser),
      Parser.match_armF fuel p = .ok (some (Special.mk hd b), p2) →
      ∃ taken rest, p.input = taken ++ rest ∧ hd = taken) :=
  ⟨fun _ _ _ _ _ => rfl,
   fun _ _ _ _ => rfl,
   let_expr_char,
   while_exprF_char,
   for_exprF_char,
   fun fuel => (if_else_extension fuel).1,
   else_bodyF_char,
   match_armF_char⟩

theorem C1_opaque_regions_verbatim_witness :
    Parser.markupF 3 ⟨false, [TokenTree.group .parenthesis
        [TokenTree.term "x" 1] 0, TokenTree.literal (.str "y") 2]⟩ =
      .ok (.splice [TokenTree.term "x" 1],
        ⟨false, [TokenTree.literal (.str "y") 2]⟩) ∧
    Parser.attr_toggler ⟨false, [TokenTree.group .bracket
        [TokenTree.term "c" 1] 0]⟩ =
      (some ⟨[TokenTree.term "c" 1], 0⟩, ⟨false, []⟩) ∧
    (∃ taken,
      ([TokenTree.term "x" 1, TokenTree.op '=' .alone 2,
        TokenTree.literal (.nonStr "1") 3, TokenTree.op ';' .alone 4] :
        List TokenTree) =
        taken ++ (Parser.mk false []).input ∧
      Markup.letExpr [TokenTree.term "let" 0, TokenTree.term "x" 1,
        TokenTree.op '=' .alone 2, TokenTree.literal (.nonStr "1") 3,
        TokenTree.op ';' .alone 4] =
        .letExpr (TokenTree.term "let" 0 :: taken)) ∧
    (∃ pre body bspan rest b,
      ([TokenTree.term "x" 1, TokenTree.group .brace [] 2] :
        List TokenTree) =
        pre ++ TokenTree.group .brace body bspan :: rest ∧
      Markup.special (.mk [TokenTree.term "while" 0, TokenTree.term "x" 1]
          (Block.mk [] 2)) =
        .special (.mk ([TokenTree.term "while" 0] ++ pre) b)) ∧
    (∃ pre body bspan rest b,
      ([TokenTree.term "x" 1, TokenTree.term "in" 2, TokenTree.term "xs" 3,
        TokenTree.group .brace [] 4] : List TokenTree) =
        pre ++ TokenTree.group .brace body bspan :: rest ∧
      Markup.special (.mk [TokenTree.term "for" 0, TokenTree.term "x" 1,
          TokenTree.term "in" 2, TokenTree.term "xs" 3] (Block.mk [] 4)) =
        .special (.mk ([TokenTree.term "for" 0] ++ pre) b)) ∧
    (∃ pre body bspan rest b extra,
      ([TokenTree.term "c" 1, TokenTree.group .brace [] 2] :
        List TokenTree) =
        pre ++ TokenTree.group .brace body bspan :: rest ∧
      ([Special.mk [TokenTree.term "if" 0, TokenTree.term "c" 1]
          (Block.mk [] 2)] : List Special) =
        [] ++ Special.mk ([TokenTree.term "if" 0] ++ pre) b :: extra) ∧
    (∃ b, ([Special.mk [TokenTree.term "else" 0] (Block.mk [] 1)] :
        List Special) =
      [] ++ [Special.mk [TokenTree.term "else" 0] b]) ∧
    (∃ taken rest,
      ([TokenTree.term "_" 0, TokenTree.op '=' .joint 1,
        TokenTree.op '>' .alone 2, TokenTree.literal (.str "x") 3,
        TokenTree.op ',' .alone 4] : List TokenTree) = taken ++ rest ∧
      ([TokenTree.term "_" 0, TokenTree.op '=' .joint 1,
        TokenTree.op '>' .alone 2] : List TokenTree) = taken) :=
  ⟨C1_opaque_regions_verbatim.1 2 false [TokenTree.term "x" 1] 0
      [TokenTree.literal (.str "y") 2],
   C1_opaque_regions_verbatim.2.1 false [TokenTree.term "c" 1] 0 [],
   C1_opaque_regions_verbatim.2.2.1 (TokenTree.term "let" 0)
     ⟨false, [TokenTree.term "x" 1, TokenTree.op '=' .alone 2,
       TokenTree.literal (.nonStr "1") 3, TokenTree.op ';' .alone 4]⟩
     (.letExpr [TokenTree.term "let" 0, TokenTree.term "x" 1,
       TokenTree.op '=' .alone 2, TokenTree.literal (.nonStr "1") 3,
       TokenTree.op ';' .alone 4]) ⟨false, []⟩ rfl,
   C1_opaque_regions_verbatim.2.2.2.1 5 [TokenTree.term "while" 0]
     ⟨false, [TokenTree.term "x" 1, TokenTree.group .brace [] 2]⟩
     (.special (.mk [TokenTree.term "while" 0, TokenTree.term "x" 1]
       (Block.mk [] 2))) ⟨false, []⟩ rfl,
   C1_opaque_regions_verbatim.2.2.2.2.1 7 [TokenTree.term "for" 0]
     ⟨false, [TokenTree.term "x" 1, TokenTree.term "in" 2,
       TokenTree.term "xs" 3, TokenTree.group .brace [] 4]⟩
     (.special (.mk [TokenTree.term "for" 0, TokenTree.term "x" 1,
       TokenTree.term "in" 2, TokenTree.term "xs" 3] (Block.mk [] 4)))
     ⟨false, []⟩ rfl,
   C1_opaque_regions_verbatim.2.2.2.2.2.1 6 [TokenTree.term "if" 0] []
     ⟨false, [TokenTree.term "c" 1, TokenTree.group .brace [] 2]⟩
     [Special.mk [TokenTree.term "if" 0, TokenTree.term "c" 1]
       (Block.mk [] 2)] ⟨false, []⟩ rfl,
   C1_opaque_regions_verbatim.2.2.2.2.2.2.1 3 [] (TokenTree.term "else" 0)
     ⟨false, [TokenTree.group .brace [] 1]⟩
     [Special.mk [TokenTree.term "else" 0] (Block.mk [] 1)]
     ⟨false, []⟩ rfl,
   C1_opaque_regions_verbatim.2.2.2.2.2.2.2 8
     ⟨false, [TokenTree.term "_" 0, TokenTree.op '=' .joint 1,
       TokenTree.op '>' .alone 2, TokenTree.literal (.str "x") 3,
       TokenTree.op ',' .alone 4]⟩
     [TokenTree.term "_" 0, TokenTree.op '=' .joint 1,
       TokenTree.op '>' .alone 2] (Block.mk [Markup.literal "x" 3] 3)
     ⟨false, []⟩ rfl⟩

end Maud

namespace Maud

/-- Joint lemma: the if/else chain only ever appends segments with
non-empty heads. -/
theorem if_else_heads :
    ∀ fuel : Nat,
      (∀ (head : List TokenTree) (segs : List Special) (p : Parser)
          (segs2 : List Special) (p2 : Parser),
        head ≠ [] → (∀ s ∈ segs, s.head ≠ []) →
        Parser.if_exprF fuel head segs p = .ok (segs2, p2) →
        ∀ s ∈ segs2, s.head ≠ []) ∧
      (∀ (segs : List Special) (p : Parser) (segs2 : List Special)
          (p2 : Parser),
        (∀ s ∈ segs, s.head ≠ []) →
        Parser.else_if_exprF fuel segs p = .ok (segs2, p2) →
        ∀ s ∈ segs2, s.head ≠ []) := by
  intro fuel
  induction fuel with
  | zero =>
      constructor
      · intro head segs p segs2 p2 _ _ h
        exact absurd h (by simp [Parser.if_exprF])
      · intro segs p segs2 p2 _ h
        exact absurd h (by simp [Parser.else_if_exprF])
  | succ k ih =>
      obtain ⟨ihI, ihE⟩ := ih
      constructor
      · intro head segs p segs2 p2 hh hs h
        rcases p with ⟨ia, input⟩
        cases input with
        | nil => exact absurd h (by simp [Parser.if_exprF])
        | cons t rest =>
            cases t with
            | literal lit span =>
                exact ihI _ segs ⟨ia, rest⟩ segs2 p2 (by simp) hs h
            | term s span =>
                exact ihI _ segs ⟨ia, rest⟩ segs2 p2 (by simp) hs h
            | op c sp span =>
                exact ihI _ segs ⟨ia, rest⟩ segs2 p2 (by simp) hs h
            | group d g span =>
                cases d with
                | parenthesis =>
                    exact ihI _ segs ⟨ia, rest⟩ segs2 p2 (by simp) hs h
                | bracket =>
                    exact ihI _ segs ⟨ia, rest⟩ segs2 p2 (by simp) hs h
                | brace =>
                    have h2 : (match Parser.blockF k ⟨ia, rest⟩ g span with
                      | .error e =>
                          (.error e : Except String (List Special × Parser))
                      | .ok b =>
                          Parser.else_if_exprF k (segs ++ [Special.mk head b])
                            ⟨ia, rest⟩) = .ok (segs2, p2) := h
                    rcases hb : Parser.blockF k ⟨ia, rest⟩ g span with e | b
                    · rw [hb] at h2
                      simp at h2
                    · rw [hb] at h2
                      refine ihE (segs ++ [Special.mk head b]) ⟨ia, rest⟩
                        segs2 p2 ?_ h2
                      intro s hsmem
                      rcases List.mem_append.mp hsmem with hmem | hmem
                      · exact hs s hmem
                      · simp only [List.mem_singleton] at hmem
                        subst hmem
                        simpa [Special.head] using hh
      · intro segs p segs2 p2 hs h
        rw [Parser.else_if_exprF] at h
        split at h
        · split at h
          · split at h
            · split at h
              · exact ihI _ segs _ segs2 p2 (by simp) hs h
              · obtain ⟨b, hsegs⟩ := else_bodyF_char k segs _ _ segs2 p2 h
                subst hsegs
                intro s hsmem
                rcases List.mem_append.mp hsmem with hmem | hmem
                · exact hs s hmem
                · simp only [List.mem_singleton] at hmem
                  subst hmem
                  simp [Special.head]
            · obtain ⟨b, hsegs⟩ := else_bodyF_char k segs _ _ segs2 p2 h
              subst hsegs
              intro s hsmem
              rcases List.mem_append.mp hsmem with hmem | hmem
              · exact hs s hmem
              · simp only [List.mem_singleton] at hmem
                subst hmem
                simp [Special.head]
          · simp only [Except.ok.injEq, Prod.mk.injEq] at h
            rw [← h.1]
            exact hs
        · simp only [Except.ok.injEq, Prod.mk.injEq] at h
          rw [← h.1]
          exact hs

end Maud

namespace Maud

/-- The body of an element is either absent (void element) or the single
markup parsed after the attributes; the result is always an `element`
with the given name and attributes. -/
theorem element_body_shape (pk : Option TokenTree) (name : List TokenTree)
    (attrs : Attrs) (padv : Parser)
    (mres : Except String (Markup × Parser)) (m : Markup) (p2 : Parser)
    (h : (match pk with
          | some (TokenTree.op ';' _ _) =>
              Except.ok (Markup.element name attrs none, padv)
          | some (TokenTree.op '/' _ _) =>
              Except.ok (Markup.element name attrs none, padv)
          | _ =>
              (match mres with
               | .error e => .error e
               | .ok (m2, p3) =>
                   Except.ok (Markup.element name attrs (some m2), p3))) =
        .ok (m, p2)) :
    ∃ obody, m = Markup.element name attrs obody := by
  split at h
  · simp only [Except.ok.injEq, Prod.mk.injEq] at h
    exact ⟨none, h.1.symm⟩
  · simp only [Except.ok.injEq, Prod.mk.injEq] at h
    exact ⟨none, h.1.symm⟩
  · split at h
    · simp at h
    · simp only [Except.ok.injEq, Prod.mk.injEq] at h
      exact ⟨_, h.1.symm⟩

/-- An element parse always yields an `element` markup carrying the given
name. -/
theorem elementF_shape :
    ∀ (fuel : Nat) (name : List TokenTree) (p : Parser) (m : Markup)
      (p2 : Parser),
      Parser.elementF fuel name p = .ok (m, p2) →
      ∃ attrs obody, m = .element name attrs obody := by
  intro fuel name p m p2 h
  cases fuel with
  | zero => exact absurd h (by simp [Parser.elementF])
  | succ k =>
      rw [Parser.elementF] at h
      split at h
      · simp at h
      · cases hat : Parser.attrsF k [] [] [] [] p with
        | error e =>
            rw [hat] at h
            simp at h
        | ok ap =>
            rcases ap with ⟨attrs1, p1⟩
            rw [hat] at h
            obtain ⟨obody, hm⟩ := element_body_shape p1.peek name attrs1
              p1.advance (Parser.markupF k p1) m p2 h
            exact ⟨attrs1, obody, hm⟩

/-- The only way `markup` produces an `ifChain` is through the `@if`
branch and `if_expr` with a singleton keyword prefix and empty initial
segments. -/
theorem markupF_ifChain_inv :
    ∀ (fuel : Nat) (p : Parser) (segs : List Special) (p2 : Parser),
      Parser.markupF fuel p = .ok (.ifChain segs, p2) →
      ∃ (k2 : Nat) (t : String) (tspan : Span) (p0 : Parser),
        Parser.if_exprF k2 [TokenTree.term t tspan] [] p0 =
          .ok (segs, p2) := by
  intro fuel p segs p2 h
  cases fuel with
  | zero => exact absurd h (by simp [Parser.markupF])
  | succ k =>
      rw [Parser.markupF] at h
      split at h
      · simp at h
      · rename_i lit span rest heq
        rcases hl : Parser.literal lit span with e | m1
        · rw [hl] at h
          simp at h
        · rw [hl] at h
          unfold Parser.literal at hl
          split at hl <;> simp_all
      · rename_i sp spn rest heq
        split at h
        · rename_i t tspan rest2
          split at h
          · rcases hi : Parser.if_exprF k [TokenTree.term t tspan] []
                ⟨p.in_attr, rest2⟩ with e | sp2
            · rw [hi] at h
              simp at h
            · rcases sp2 with ⟨segments, p1⟩
              rw [hi] at h
              simp only [Except.ok.injEq, Prod.mk.injEq,
                Markup.ifChain.injEq] at h
              obtain ⟨hsegs, hp⟩ := h
              exact ⟨k, t, tspan, ⟨p.in_attr, rest2⟩, by rw [hi, hsegs, hp]⟩
          · split at h
            · obtain ⟨pre, body, bspan, rest3, b, hin, hm⟩ :=
                while_exprF_char k _ _ _ p2 h
              simp at hm
            · split at h
              · obtain ⟨pre, body, bspan, rest3, b, hin, hm⟩ :=
                  for_exprF_char k _ _ _ p2 h
                simp at hm
              · split at h
                · obtain ⟨pre, body, bspan, rest3, arms, hin, hm⟩ :=
                    match_exprF_char k _ _ _ p2 h
                  simp at hm
                · split at h
                  · simp at h
                  · simp at h
        · simp at h
      · rename_i s spn rest heq
        rcases hn : p.namespaced_name with ⟨mres, p1⟩
        rw [hn] at h
        split at h
        · simp at h
        · obtain ⟨attrs, obody, hm⟩ := elementF_shape k _ _ _ p2 h
          simp at hm
      · simp at h
      · rename_i body span rest heq
        rcases hb : Parser.blockF k ⟨p.in_attr, rest⟩ body span with e | b
        · rw [hb] at h
          simp at h
        · rw [hb] at h
          simp at h
      · simp at h

end Maud

namespace Maud

/-- The token stream of
`@if COND1 { "a" } @else if COND2 { "b" } @else { "c" }`. -/
def exIfChain : List TokenTree :=
  [.op '@' .alone 0, .term "if" 1, .term "COND1" 2,
   .group .brace [.literal (.str "a") 3] 4,
   .op '@' .alone 5, .term "else" 6, .term "if" 7, .term "COND2" 8,
   .group .brace [.literal (.str "b") 9] 10,
   .op '@' .alone 11, .term "else" 12,
   .group .brace [.literal (.str "c") 13] 14]

/-- C2 counterexample: parsing the example `@if`/`@else if`/`@else` chain
yields three segments whose third head is the singleton `else` keyword
token — not empty, as the claim states. -/
theorem C2_counterexample :
    Parser.markupsF 30 (Parser.new exIfChain) =
      .ok ([Markup.ifChain
        [Special.mk [TokenTree.term "if" 1, TokenTree.term "COND1" 2]
            (Block.mk [Markup.literal "a" 3] 4),
         Special.mk [TokenTree.term "else" 6, TokenTree.term "if" 7,
            TokenTree.term "COND2" 8] (Block.mk [Markup.literal "b" 9] 10),
         Special.mk [TokenTree.term "else" 12]
            (Block.mk [Markup.literal "c" 13] 14)]], ⟨false, []⟩) ∧
    (Special.mk [TokenTree.term "else" 12]
        (Block.mk [Markup.literal "c" 13] 14)).head ≠ [] :=
  ⟨rfl, by simp [Special.head]⟩

/-- C2 amended: every `ifChain` the parser produces has a non-empty
segments list in which every segment (the final bare-`else` one included)
has a non-empty head; the example chain parses to exactly three segments
whose third head is the singleton `else` keyword token. -/
theorem C2_if_segments :
    (∀ (fuel : Nat) (p : Parser) (segs : List Special) (p2 : Parser),
      Parser.markupF fuel p = .ok (.ifChain segs, p2) →
      segs ≠ [] ∧ ∀ s ∈ segs, s.head ≠ []) ∧
    Parser.markupsF 30 (Parser.new exIfChain) =
      .ok ([Markup.ifChain
        [Special.mk [TokenTree.term "if" 1, TokenTree.term "COND1" 2]
            (Block.mk [Markup.literal "a" 3] 4),
         Special.mk [TokenTree.term "else" 6, TokenTree.term "if" 7,
            TokenTree.term "COND2" 8] (Block.mk [Markup.literal "b" 9] 10),
         Special.mk [TokenTree.term "else" 12]
            (Block.mk [Markup.literal "c" 13] 14)]], ⟨false, []⟩) := by
  constructor
  · intro fuel p segs p2 h
    obtain ⟨k2, t, tspan, p0, hif⟩ := markupF_ifChain_inv fuel p segs p2 h
    constructor
    · obtain ⟨pre, body, bspan, rest, b, extra, hin, hsegs⟩ :=
        (if_else_extension k2).1 _ [] p0 segs p2 hif
      rw [hsegs]
      simp
    · exact (if_else_heads k2).1 [TokenTree.term t tspan] [] p0 segs p2
        (by simp) (by simp) hif
  · rfl

theorem C2_if_segments_witness :
    ([Markup.ifChain [Special.mk [TokenTree.term "if" 1, TokenTree.term "c" 2]
        (Block.mk [] 3)]] ≠ ([] : List Markup)) ∧
    ([Special.mk [TokenTree.term "if" 1, TokenTree.term "c" 2]
        (Block.mk [] 3)] ≠ ([] : List Special) ∧
      ∀ s ∈ [Special.mk [TokenTree.term "if" 1, TokenTree.term "c" 2]
        (Block.mk [] 3)], s.head ≠ []) :=
  ⟨by simp,
   C2_if_segments.1 20 ⟨false, [TokenTree.op '@' .alone 0,
       TokenTree.term "if" 1, TokenTree.term "c" 2,
       TokenTree.group .brace [] 3]⟩
     [Special.mk [TokenTree.term "if" 1, TokenTree.term "c" 2]
       (Block.mk [] 3)] ⟨false, []⟩ rfl⟩

end Maud

namespace Maud

/-- A parsed block is exactly the markups of its inner stream. -/
theorem blockF_inv :
    ∀ (fuel : Nat) (p : Parser) (body : List TokenTree) (span : Span)
      (b : Block),
      Parser.blockF fuel p body span = .ok b →
      ∃ k2 ms q, Parser.markupsF k2 (p.with_input body) = .ok (ms, q) ∧
        b = Block.mk ms span := by
  intro fuel p body span b h
  cases fuel with
  | zero => exact absurd h (by simp [Parser.blockF])
  | succ k =>
      cases hm : Parser.markupsF k (p.with_input body) with
      | error e =>
          rw [Parser.blockF, hm] at h
          simp at h
      | ok mp =>
          rcases mp with ⟨ms, q⟩
          rw [Parser.blockF, hm] at h
          simp only [Except.ok.injEq] at h
          exact ⟨k, ms, q, hm, h.symm⟩

/-- The post-arrow input starts with a token that is not a brace group. -/
def exprArmHead : List TokenTree → Bool
  | [] => false
  | (.group .brace _ _) :: _ => false
  | _ :: _ => true

/-- A match-arm body that does not start with a brace group is the
comma-terminated run, consumed verbatim and re-parsed as markups into a
`Block`. -/
theorem match_arm_expr_body_char :
    ∀ (fuel : Nat) (head : List TokenTree) (p : Parser) (r : Option Special)
      (p2 : Parser),
      exprArmHead p.input = true →
      Parser.match_arm_bodyF fuel head p = .ok (r, p2) →
      ∃ run csp csc rest ms bspan k2 q,
        p.input = run ++ TokenTree.op ',' csp csc :: rest ∧
        run ≠ [] ∧
        Parser.markupsF k2 ⟨p.in_attr, run⟩ = .ok (ms, q) ∧
        r = some (Special.mk head (Block.mk ms bspan)) ∧
        p2 = ⟨p.in_attr, rest⟩ := by
  intro fuel head p r p2 hx h
  cases fuel with
  | zero => exact absurd h (by simp [Parser.match_arm_bodyF])
  | succ k =>
      rcases p with ⟨ia, input⟩
      cases input with
      | nil => simp [exprArmHead] at hx
      | cons first rest0 =>
          have step :
              ∀ hstep : Parser.match_arm_exprF k head (TokenTree.span first)
                  [first] ⟨ia, rest0⟩ = .ok (r, p2),
              ∃ run csp csc rest ms bspan k2 q,
                (first :: rest0 : List TokenTree) =
                  run ++ TokenTree.op ',' csp csc :: rest ∧
                run ≠ [] ∧
                Parser.markupsF k2 ⟨ia, run⟩ = .ok (ms, q) ∧
                r = some (Special.mk head (Block.mk ms bspan)) ∧
                p2 = ⟨ia, rest⟩ := by
            intro hstep
            obtain ⟨run, csp, csc, rest, b, bf, bspan, hin, hp2, hblk, hr⟩ :=
              match_arm_exprF_char k head (TokenTree.span first) [first]
                ⟨ia, rest0⟩ r p2 hstep
            have hin2 : rest0 = run ++ TokenTree.op ',' csp csc :: rest := hin
            obtain ⟨k2, ms, q, hms, hb⟩ :=
              blockF_inv bf ⟨ia, rest⟩ ([first] ++ run) bspan b hblk
            refine ⟨first :: run, csp, csc, rest, ms, bspan, k2, q,
              by simp [hin2], by simp, hms, ?_, hp2⟩
            rw [hr, hb]
          cases first with
          | literal lit span => exact step h
          | term s span => exact step h
          | op c sp span => exact step h
          | group d g span =>
              cases d with
              | parenthesis => exact step h
              | bracket => exact step h
              | brace => simp [exprArmHead] at hx

end Maud

namespace Maud

/-- The token stream of `@match x { 1 => "one", _ => { "other" } }`. -/
def exMatch : List TokenTree :=
  [.op '@' .alone 0, .term "match" 1, .term "x" 2,
   .group .brace
     [.literal (.nonStr "1") 3, .op '=' .joint 4, .op '>' .alone 5,
      .literal (.str "one") 6, .op ',' .alone 7,
      .term "_" 8, .op '=' .joint 9, .op '>' .alone 10,
      .group .brace [.literal (.str "other") 11] 12] 13]

/-- C4 counterexample: the expression arm `_ => "a" "b",` produces a body
`Block` with two markups, so the comma-terminated run is not wrapped into
a one-markup `Block` — it is re-parsed as a markup sequence. -/
theorem C4_counterexample :
    Parser.match_armF 10 ⟨false, [TokenTree.term "_" 0,
        TokenTree.op '=' .joint 1, TokenTree.op '>' .alone 2,
        TokenTree.literal (.str "a") 3, TokenTree.literal (.str "b") 4,
        TokenTree.op ',' .alone 5]⟩ =
      .ok (some (Special.mk [TokenTree.term "_" 0, TokenTree.op '=' .joint 1,
          TokenTree.op '>' .alone 2]
        (Block.mk [Markup.literal "a" 3, Markup.literal "b" 4] 4)),
        ⟨false, []⟩) ∧
    (Block.mk [Markup.literal "a" 3, Markup.literal "b" 4] 4).markups.length
      ≠ 1 :=
  ⟨rfl, by simp [Block.markups]⟩

/-- C4 amended: an arm body that is not a brace group is the verbatim
comma-terminated run re-parsed as a markup sequence and wrapped into a
`Block` (one-element exactly when the run parses to a single markup, as
in `1 => "one"`); the trailing comma after a brace-bodied arm is
optional, as the example's second arm shows. -/
theorem C4_match_arm_bodies :
    (∀ (fuel : Nat) (head : List TokenTree) (p : Parser) (r : Option Special)
        (p2 : Parser),
      exprArmHead p.input = true →
      Parser.match_arm_bodyF fuel head p = .ok (r, p2) →
      ∃ run csp csc rest ms bspan k2 q,
        p.input = run ++ TokenTree.op ',' csp csc :: rest ∧
        run ≠ [] ∧
        Parser.markupsF k2 ⟨p.in_attr, run⟩ = .ok (ms, q) ∧
        r = some (Special.mk head (Block.mk ms bspan)) ∧
        p2 = ⟨p.in_attr, rest⟩) ∧
    Parser.markupsF 40 (Parser.new exMatch) =
      .ok ([Markup.matchExpr [TokenTree.term "match" 1, TokenTree.term "x" 2]
        [Special.mk [TokenTree.literal (.nonStr "1") 3,
            TokenTree.op '=' .joint 4, TokenTree.op '>' .alone 5]
            (Block.mk [Markup.literal "one" 6] 6),
         Special.mk [TokenTree.term "_" 8, TokenTree.op '=' .joint 9,
            TokenTree.op '>' .alone 10]
            (Block.mk [Markup.literal "other" 11] 12)] 13], ⟨false, []⟩) :=
  ⟨match_arm_expr_body_char, rfl⟩

theorem C4_match_arm_bodies_witness :
    ∃ run csp csc rest ms bspan k2 q,
      ([TokenTree.literal (.str "one") 3, TokenTree.op ',' .alone 4] :
        List TokenTree) = run ++ TokenTree.op ',' csp csc :: rest ∧
      run ≠ [] ∧
      Parser.markupsF k2 ⟨false, run⟩ = .ok (ms, q) ∧
      (some (Special.mk [TokenTree.term "_" 0]
          (Block.mk [Markup.literal "one" 3] 3)) : Option Special) =
        some (Special.mk [TokenTree.term "_" 0] (Block.mk ms bspan)) ∧
      (⟨false, []⟩ : Parser) = ⟨false, rest⟩ :=
  C4_match_arm_bodies.1 8 [TokenTree.term "_" 0]
    ⟨false, [TokenTree.literal (.str "one") 3, TokenTree.op ',' .alone 4]⟩
    (some (Special.mk [TokenTree.term "_" 0]
      (Block.mk [Markup.literal "one" 3] 3))) ⟨false, []⟩ (by decide) rfl

end Maud
